import Mathlib

/-!
# Edge-adaptive LSB steganography: a shallow embedding

This file embeds the core pipeline of the edge-adaptive steganography
program (edge_detection.py, edge_clustering.py, stegano_edge_adaptive.py)
in Lean and proves properties of it.

Modelling conventions:
* A raster is a list of rows of RGB pixels; PIL grayscale conversion,
  the Sobel operator, normalization, DBSCAN over standardized
  [x, y, gray] features, neighborhood variance and numpy percentile are
  all translated into exact integer/rational arithmetic (the Python code
  computes them in float64; all concrete instances studied here keep a
  wide margin around every comparison, so the exact and floating
  computations agree).
* File I/O errors (missing files, non-RGB modes) are not modelled; every
  function takes the raster itself.  All the other error branches of the
  Python code are kept, as `Except.error` with the Python message text
  (dynamic parts of the messages are dropped).
* Messages are lists of character codes (Python `ord`).
-/

set_option allowUnsafeReducibility true in
attribute [semireducible] Rat.add Rat.mul Rat.inv Rat.sub Rat.ofScientific

namespace Stegano

instance instDecEqExcept {ε α : Type} [DecidableEq ε] [DecidableEq α] :
    DecidableEq (Except ε α) := fun x y =>
  match x, y with
  | .ok a, .ok b =>
    if h : a = b then .isTrue (by rw [h]) else .isFalse (by simp [h])
  | .error a, .error b =>
    if h : a = b then .isTrue (by rw [h]) else .isFalse (by simp [h])
  | .ok _, .error _ => .isFalse (by simp)
  | .error _, .ok _ => .isFalse (by simp)

/-- An RGB pixel; each channel is a byte value 0..255. -/
structure Pixel where
  r : Nat
  g : Nat
  b : Nat
deriving DecidableEq, Repr

/-- A raster image: a list of rows, each row a list of pixels
    (row-major, as the numpy arrays in the source). -/
abbrev Raster := List (List Pixel)

def Raster.heightOf (img : Raster) : Nat := img.length

def Raster.widthOf (img : Raster) : Nat := (img.headD []).length

/-- A well-formed raster is rectangular: every row has length `widthOf`. -/
def Raster.Rect (img : Raster) : Prop :=
  ∀ r ∈ img, r.length = Raster.widthOf img

instance (img : Raster) : Decidable (Raster.Rect img) := by
  unfold Raster.Rect; infer_instance

/-- Pixel at column x, row y (black outside the grid; the source never
    reads outside the grid). -/
def getPixel (img : Raster) (x y : Nat) : Pixel :=
  ((img.getD y []).getD x ⟨0, 0, 0⟩)

/-- PIL `convert('L')` luma: (R*19595 + G*38470 + B*7471 + 0x8000) >> 16. -/
def grayOf (p : Pixel) : Nat :=
  (19595 * p.r + 38470 * p.g + 7471 * p.b + 32768) / 65536

def grayAt (img : Raster) (x y : Nat) : Nat := grayOf (getPixel img x y)

/-- Horizontal Sobel gradient at an interior pixel; 0 at the border
    (the Python loops run only over 1 ≤ y ≤ H-2, 1 ≤ x ≤ W-2, and
    `np.zeros_like` leaves the border at 0). -/
def sobelGx (img : Raster) (x y : Nat) : Int :=
  if 1 ≤ x ∧ x + 1 < Raster.widthOf img ∧ 1 ≤ y ∧ y + 1 < Raster.heightOf img then
    let g : Nat → Nat → Int := fun a b => (grayAt img a b : Int)
    (g (x+1) (y-1) - g (x-1) (y-1)) + 2 * (g (x+1) y - g (x-1) y) +
      (g (x+1) (y+1) - g (x-1) (y+1))
  else 0

/-- Vertical Sobel gradient at an interior pixel; 0 at the border. -/
def sobelGy (img : Raster) (x y : Nat) : Int :=
  if 1 ≤ x ∧ x + 1 < Raster.widthOf img ∧ 1 ≤ y ∧ y + 1 < Raster.heightOf img then
    let g : Nat → Nat → Int := fun a b => (grayAt img a b : Int)
    (g (x-1) (y+1) - g (x-1) (y-1)) + 2 * (g x (y+1) - g x (y-1)) +
      (g (x+1) (y+1) - g (x+1) (y-1))
  else 0

/-- Squared Sobel magnitude Gx² + Gy² (an integer). -/
def magSq (img : Raster) (x y : Nat) : Nat :=
  (sobelGx img x y ^ 2 + sobelGy img x y ^ 2).toNat

/-- Row-major list of all coordinates (x, y) of the raster. -/
def allCoords (img : Raster) : List (Nat × Nat) :=
  (List.range (Raster.heightOf img)).flatMap fun y =>
    (List.range (Raster.widthOf img)).map fun x => (x, y)

/-- Maximum of Gx²+Gy² over the whole raster (`edge_magnitude.max()` squared). -/
def maxMagSq (img : Raster) : Nat :=
  (allCoords img).foldl (fun m c => max m (magSq img c.1 c.2)) 0

/-- ⌊√v⌋ for v ≤ 65535 (all arguments below are at most 65025), via a
    bounded search that the kernel can evaluate. -/
def sqrt255 (v : Nat) : Nat :=
  (List.range 256).foldl (fun acc k => if k * k ≤ v then k else acc) 0

/-- Normalized edge magnitude `(mag / mag.max() * 255).astype(np.uint8)`:
    since mag = √(Gx²+Gy²), the truncated value equals
    ⌊√(65025·magSq/maxMagSq)⌋, computed in exact integer arithmetic
    (magSq ≤ maxMagSq, so the argument is at most 65025).  When
    maxMagSq = 0 the Python array holds NaN, which `astype(np.uint8)`
    maps to 0 on the reference platform; Nat division by zero likewise
    yields 0 here. -/
def normMag (img : Raster) (mmax : Nat) (x y : Nat) : Nat :=
  sqrt255 (65025 * magSq img x y / mmax)

/-- The row-major coordinates whose normalized magnitude strictly
    exceeds the threshold. -/
def edgePixelList (img : Raster) (threshold : Nat) : List (Nat × Nat) :=
  (allCoords img).filter fun c =>
    threshold < normMag img (maxMagSq img) c.1 c.2

/-- `EdgeDetection.get_edge_pixels`.  The Python wrapper only fails on
    file-system errors, which are not modelled; the computation itself
    always succeeds. -/
def getEdgePixels (img : Raster) (threshold : Nat) :
    Except String (List (Nat × Nat)) :=
  .ok (edgePixelList img threshold)

/-- 3×3 clamped grayscale neighborhood of (x, y), row-major
    (`arr[max(0,y-1):min(H,y+2), max(0,x-1):min(W,x+2)]`). -/
def neighborhood (img : Raster) (x y : Nat) : List Nat :=
  let H := Raster.heightOf img
  let W := Raster.widthOf img
  (List.range' (y - 1) (min H (y + 2) - (y - 1))).flatMap fun b =>
    (List.range' (x - 1) (min W (x + 2) - (x - 1))).map fun a => grayAt img a b

/-- `np.var` (population variance) of a list of naturals, exact in ℚ. -/
def listVar (l : List Nat) : ℚ :=
  let n : ℚ := l.length
  let s : ℚ := (l.map (fun v => (v : ℚ))).sum
  let s2 : ℚ := (l.map (fun v => ((v : ℚ))^2)).sum
  s2 / n - (s / n)^2

/-- `calculate_edge_strength`: variance of the 3×3 grayscale
    neighborhood of the pixel. -/
def calculate_edge_strength (img : Raster) (x y : Nat) : ℚ :=
  listVar (neighborhood img x y)

/-- Insertion of a rational into a sorted list (ascending). -/
def insertQ (a : ℚ) : List ℚ → List ℚ
  | [] => [a]
  | b :: l => if a ≤ b then a :: b :: l else b :: insertQ a l

/-- Insertion sort, ascending (the order `np.percentile` sorts into). -/
def sortQ : List ℚ → List ℚ
  | [] => []
  | a :: l => insertQ a (sortQ l)

/-- `np.percentile(l, p)` with the default linear interpolation between
    order statistics: index h = p/100·(n−1), result
    v(⌊h⌋) + (h−⌊h⌋)·(v(⌊h⌋+1) − v(⌊h⌋)). -/
def percentile (l : List ℚ) (p : ℚ) : ℚ :=
  let s := sortQ l
  let n := s.length
  let h : ℚ := p / 100 * ((n : ℚ) - 1)
  let lo : Nat := h.floor.toNat
  let a := s.getD lo 0
  let b := s.getD (lo + 1) a
  a + (h - (lo : ℚ)) * (b - a)

/-- `calculate_adaptive_threshold`: percentile of the neighborhood
    variances of the first min(30, n) coordinates. -/
def calculate_adaptive_threshold (img : Raster) (coords : List (Nat × Nat))
    (p : Nat) : ℚ :=
  let sample := coords.take (min 30 coords.length)
  percentile (sample.map fun c => calculate_edge_strength img c.1 c.2) p

/-- The clustering feature vector of an edge coordinate: [x, y, grayscale]
    (`coordinates_with_intensity`). -/
def featOf (img : Raster) (c : Nat × Nat) : List ℚ :=
  [(c.1 : ℚ), (c.2 : ℚ), (grayAt img c.1 c.2 : ℚ)]

/-- Per-feature population variances over the dataset.  StandardScaler
    divides each feature by its standard deviation (a zero-variance
    feature is left unscaled, but then all its deviations are 0 anyway). -/
def featVars (feats : List (List ℚ)) : List ℚ :=
  (List.range 3).map fun i =>
    let col := feats.map fun f => f.getD i 0
    let n : ℚ := col.length
    let s := col.sum
    (col.map (fun v => v ^ 2)).sum / n - (s / n) ^ 2

/-- Squared Euclidean distance between two StandardScaler-scaled feature
    vectors: Σ (Δf)²/var(f).  The feature means cancel in the difference;
    a zero-variance denominator only occurs when Δf = 0, where ℚ's
    zero-division convention gives the correct 0 term. -/
def scaledDistSq (vars f1 f2 : List ℚ) : ℚ :=
  ((List.range 3).map fun i =>
    (f1.getD i 0 - f2.getD i 0) ^ 2 / vars.getD i 1).sum

/-- DBSCAN core point: at least min_samples dataset points (itself
    included) within distance eps in scaled feature space. -/
def isCorePt (vars : List ℚ) (feats : List (List ℚ)) (eps : ℚ)
    (minSamples : Nat) (f : List ℚ) : Bool :=
  minSamples ≤ (feats.filter fun g => scaledDistSq vars f g ≤ eps ^ 2).length

/-- DBSCAN label ≠ -1: the point is a core point or within eps of one
    (core points and border points get cluster labels; every other point
    is labelled NOISE = -1).  Only this noise/non-noise distinction is
    consumed downstream, so cluster identities need not be modelled. -/
def isAssigned (vars : List ℚ) (feats : List (List ℚ)) (eps : ℚ)
    (minSamples : Nat) (f : List ℚ) : Bool :=
  feats.any fun g => isCorePt vars feats eps minSamples g &&
    decide (scaledDistSq vars f g ≤ eps ^ 2)

/-- The label of an edge coordinate is not NOISE (label ≠ -1). -/
def coordAssigned (img : Raster) (edgeCoords : List (Nat × Nat)) (eps : ℚ)
    (minSamples : Nat) (c : Nat × Nat) : Bool :=
  let feats := edgeCoords.map (featOf img)
  isAssigned (featVars feats) feats eps minSamples (featOf img c)

/-- Lexicographic order on coordinate pairs (Python tuple comparison,
    as used by `list.sort()`). -/
def coordLe (a b : Nat × Nat) : Bool :=
  a.1 < b.1 || (a.1 = b.1 && a.2 ≤ b.2)

def insertCoord (a : Nat × Nat) : List (Nat × Nat) → List (Nat × Nat)
  | [] => [a]
  | b :: l => if coordLe a b then a :: b :: l else b :: insertCoord a l

/-- Insertion sort by `coordLe` (the effect of `list.sort()` on a
    duplicate-free coordinate list). -/
def sortCoords : List (Nat × Nat) → List (Nat × Nat)
  | [] => []
  | a :: l => insertCoord a (sortCoords l)

/-- The fields of the `cluster_edge_pixels` result dictionary consumed by
    the rest of the program. -/
structure ClusterResult where
  clustered_coords : List (Nat × Nat)
  noise_coords : List (Nat × Nat)
  all_coords : List (Nat × Nat)
deriving DecidableEq, Repr

/-- `EdgeClustering.cluster_edge_pixels`: validates eps/min_samples and
    the threshold, runs edge detection, rejects an empty edge list,
    clusters the coordinates (features [x, y, gray], standardized) with
    DBSCAN, and partitions them into sorted clustered/noise groups. -/
def cluster_edge_pixels (img : Raster) (threshold : Nat) (eps : ℚ)
    (minSamples : Nat) : Except String ClusterResult :=
  if eps ≤ 0 ∨ minSamples < 2 then
    .error ("Parameter DBSCAN tidak valid (eps > 0, min_samples >= 2)")
  else if 255 < threshold then
    .error ("Threshold harus antara 0-255")
  else
    match getEdgePixels img threshold with
    | .error e => .error e
    | .ok edgeCoords =>
      if edgeCoords.length = 0 then
        .error ("Tidak ada edge ditemukan")
      else
        let clustered := edgeCoords.filter fun c =>
          coordAssigned img edgeCoords eps minSamples c
        let noise := edgeCoords.filter fun c =>
          !(coordAssigned img edgeCoords eps minSamples c)
        .ok ⟨sortCoords clustered, sortCoords noise, edgeCoords⟩

/-- `EdgeClustering.get_optimized_edge_pixels`: the noise group when
    use_isolated, otherwise the clustered group; empty selection is an
    error. -/
def get_optimized_edge_pixels (img : Raster) (threshold : Nat) (eps : ℚ)
    (minSamples : Nat) (useIsolated : Bool) :
    Except String (List (Nat × Nat)) :=
  match cluster_edge_pixels img threshold eps minSamples with
  | .error e => .error e
  | .ok res =>
    if (if useIsolated then res.noise_coords else res.clustered_coords).length = 0 then
      .error ("Tidak ada edge pixels ditemukan")
    else .ok (if useIsolated then res.noise_coords else res.clustered_coords)

/-- Number of binary digits of n (0 for n = 0), via a structural fuel
    recursion (the fuel n dominates the number of halvings). -/
def bitLenAux : Nat → Nat → Nat
  | 0, _ => 0
  | fuel + 1, n => if n = 0 then 0 else bitLenAux fuel (n / 2) + 1

/-- Number of binary digits Python would print for n (1 for n = 0). -/
def bitLen (n : Nat) : Nat := max 1 (bitLenAux n n)

/-- Big-endian digits of n % 2^w, accumulator style. -/
def natToBitsAux : Nat → Nat → List Bool → List Bool
  | 0, _, acc => acc
  | w + 1, m, acc => natToBitsAux w (m / 2) (decide (m % 2 = 1) :: acc)

/-- Big-endian bits of n, `width` digits (Python `format(n, '0Nb')`
    yields at least N digits, more if n needs them). -/
def natToBits (width n : Nat) : List Bool :=
  natToBitsAux (max width (bitLen n)) n []

/-- Big-endian bit string to Nat (Python `int(bits, 2)`). -/
def bitsToNat (bits : List Bool) : Nat :=
  bits.foldl (fun acc b => 2 * acc + (if b then 1 else 0)) 0

/-- A ChannelCursor entry: (x, y, channel). -/
abbrev Entry := Nat × Nat × Nat

/-- The ChannelCursor: each selected coordinate expanded to its R, G, B
    channels in order (the generator `get_channel_iterator`). -/
def entriesOf (coords : List (Nat × Nat)) : List Entry :=
  coords.flatMap fun c => [(c.1, c.2, 0), (c.1, c.2, 1), (c.1, c.2, 2)]

def channelOf (p : Pixel) (c : Nat) : Nat :=
  if c = 0 then p.r else if c = 1 then p.g else p.b

def setChannel (p : Pixel) (c v : Nat) : Pixel :=
  if c = 0 then ⟨v, p.g, p.b⟩ else if c = 1 then ⟨p.r, v, p.b⟩ else ⟨p.r, p.g, v⟩

/-- Channel value of the raster at entry (x, y, c). -/
def channelAt (img : Raster) (e : Entry) : Nat :=
  channelOf (getPixel img e.1 e.2.1) e.2.2

/-- Overwrite channel c of pixel (x, y) (`pixels[x, y] = tuple(...)`;
    a no-op outside the grid, which the source never hits). -/
def writeChannel (img : Raster) (x y c v : Nat) : Raster :=
  img.set y ((img.getD y []).set x (setChannel (getPixel img x y) c v))

/-- `adaptive_embed_bits`: at a high-variance channel embed (up to) 2
    bits into the 2 LSBs; otherwise 1 bit into the LSB.  Returns
    (new value, bits embedded, new bit index). -/
def adaptive_embed_bits (pixelValue : Nat) (messageBits : List Bool)
    (bitIndex : Nat) (strength threshold : ℚ) : Nat × Nat × Nat :=
  if strength ≥ threshold then
    let bitsToEmbed := min 2 (messageBits.length - bitIndex)
    if bitsToEmbed = 2 then
      let twoBits := bitsToNat ((messageBits.drop bitIndex).take 2)
      (pixelValue / 4 * 4 + twoBits, 2, bitIndex + 2)
    else if bitsToEmbed = 1 then
      (pixelValue / 2 * 2 + (if messageBits.getD bitIndex false then 1 else 0),
        1, bitIndex + 1)
    else (pixelValue, 0, bitIndex)
  else
    if bitIndex < messageBits.length then
      (pixelValue / 2 * 2 + (if messageBits.getD bitIndex false then 1 else 0),
        1, bitIndex + 1)
    else (pixelValue, 0, bitIndex)

/-- `adaptive_extract_bits`: 2 bits (high bit first, `format(v & 3, '02b')`)
    from a high-variance channel, else the LSB. -/
def adaptive_extract_bits (pixelValue : Nat) (strength threshold : ℚ) :
    List Bool :=
  if strength ≥ threshold then
    [decide (pixelValue / 2 % 2 = 1), decide (pixelValue % 2 = 1)]
  else [decide (pixelValue % 2 = 1)]

/-- The header loop of `encode_message`: write each header bit into the
    LSB of the next cursor entry (reading the current channel value). -/
def embedHeader : Raster → List (Entry × Bool) → Raster
  | im, [] => im
  | im, (e, b) :: rest =>
    embedHeader
      (writeChannel im e.1 e.2.1 e.2.2
        (channelAt im e / 2 * 2 + (if b then 1 else 0))) rest

/-- The payload streaming loop of `encode_message`: while bits remain,
    take the next cursor entry, recompute that pixel's strength against
    the *original* raster, and embed 1–2 bits of the *original* channel
    value into the working copy; `none` models StopIteration (cursor
    exhausted before the payload ends). -/
def payloadLoop (orig : Raster) (bits : List Bool) (thr : ℚ) :
    List Entry → Raster → Nat → Option (Raster × Nat)
  | es, im, idx =>
    if bits.length ≤ idx then some (im, idx)
    else match es with
      | [] => none
      | e :: rest =>
        let strength := calculate_edge_strength orig e.1 e.2.1
        let origVal := channelAt orig e
        let r := adaptive_embed_bits origVal bits idx strength thr
        let im2 := if 0 < r.2.1 then writeChannel im e.1 e.2.1 e.2.2 r.1 else im
        payloadLoop orig bits thr rest im2 r.2.2

/-- Payload bits consumed per processed cursor entry during encode
    (mirrors `payloadLoop` step for step). -/
def encodeWidths (orig : Raster) (bits : List Bool) (thr : ℚ) :
    List Entry → Nat → List Nat
  | es, idx =>
    if bits.length ≤ idx then []
    else match es with
      | [] => []
      | e :: rest =>
        let r := adaptive_embed_bits (channelAt orig e) bits idx
          (calculate_edge_strength orig e.1 e.2.1) thr
        r.2.1 :: encodeWidths orig bits thr rest r.2.2

/-- Bits extracted per cursor entry during decode: 2 at a high-variance
    pixel, else 1. -/
def decodeWidths (img : Raster) (thr : ℚ) (es : List Entry) : List Nat :=
  es.map fun e =>
    if calculate_edge_strength img e.1 e.2.1 ≥ thr then 2 else 1

/-- `SteganographyEdgeAdaptive.encode_message`.  The message is the list
    of character codes; the saved stego raster is the ok value, every
    failure is an error string and produces no raster.  An out-of-range
    percentile makes `np.percentile` raise, which the outer handler
    turns into an error return. -/
def encode_message (img : Raster) (message : List Nat) (threshold : Nat)
    (eps : ℚ) (minSamples : Nat) (useIsolated : Bool)
    (variancePercentile : Nat) : Except String Raster :=
  match get_optimized_edge_pixels img threshold eps minSamples useIsolated with
  | .error e => .error e
  | .ok edgeCoords =>
    if 65535 < message.length then
      .error ("Pesan terlalu panjang (maksimal 65535 karakter)")
    else if 100 < variancePercentile then
      .error ("Error saat encode: percentile out of range")
    else
      let headerBits := natToBits 16 message.length ++
        natToBits 8 variancePercentile
      let dataBits := message.flatMap (natToBits 8)
      let varianceThreshold :=
        calculate_adaptive_threshold img edgeCoords variancePercentile
      let totalChannels := edgeCoords.length * 3
      if totalChannels < headerBits.length + dataBits.length then
        .error ("Kapasitas tidak cukup")
      else
        let entries := entriesOf edgeCoords
        if entries.length < headerBits.length then
          .error ("Kapasitas tidak cukup untuk header")
        else
          let afterHeader := embedHeader img (entries.zip headerBits)
          match payloadLoop img dataBits varianceThreshold
              (entries.drop headerBits.length) afterHeader 0 with
          | none => .error ("Kapasitas tidak cukup untuk data")
          | some (encoded, bitIndex) =>
            if bitIndex < dataBits.length then
              .error ("Encode selesai tapi data tidak lengkap")
            else .ok encoded

/-- `SteganographyEdgeAdaptive.decode_message`: recomputes the pipeline
    on the stego raster (both `img` and `original_img_for_strength` are
    opened from the stego path), reads the 24-bit header from the LSBs,
    then extracts the adaptive bit stream and truncates it to 8·length
    bits. -/
def decode_message (img : Raster) (threshold : Nat) (eps : ℚ)
    (minSamples : Nat) (useIsolated : Bool) : Except String (List Nat) :=
  match get_optimized_edge_pixels img threshold eps minSamples useIsolated with
  | .error e => .error e
  | .ok edgeCoords =>
    let entries := entriesOf edgeCoords
    if entries.length < 24 then
      .error ("Data tidak cukup untuk membaca header")
    else
      let headerBits := (entries.take 24).map fun e =>
        decide (channelAt img e % 2 = 1)
      let messageLength := bitsToNat (headerBits.take 16)
      let variancePercentile := bitsToNat (headerBits.drop 16)
      if 100 < variancePercentile then
        .error ("Gagal decode: variance_percentile tidak valid")
      else if messageLength = 0 then
        .ok []
      else
        let varianceThreshold :=
          calculate_adaptive_threshold img edgeCoords variancePercentile
        let stream := (entries.drop 24).flatMap fun e =>
          adaptive_extract_bits (channelAt img e)
            (calculate_edge_strength img e.1 e.2.1) varianceThreshold
        let bitsToExtract := messageLength * 8
        if stream.length < bitsToExtract then
          .error ("Data korup atau tidak cukup")
        else
          let dataBits := stream.take bitsToExtract
          .ok ((List.range messageLength).map fun i =>
            bitsToNat ((dataBits.drop (8 * i)).take 8))

/-- The fields of the `get_capacity` result that the claims mention. -/
structure AdaptiveCapacity where
  edge_pixels : Nat
  high_variance_pixels : Nat
  low_variance_pixels : Nat
  max_chars : Int
  max_bits : Nat
deriving DecidableEq, Repr

/-- `SteganographyEdgeAdaptive.get_capacity`: samples min(30, n)
    coordinates, splits them by the adaptive threshold, extrapolates the
    high/low split to all n coordinates
    (`int((high / sample) * total)`, exact and truncated), and estimates
    max_bits = 4·high + 3·low with 24 header bits reserved.  Python `//`
    on the (possibly negative) numerator is floor division; the divisor
    8 is positive, so `Int.ediv` (notation `/`) agrees with it. -/
def get_capacity (img : Raster) (threshold : Nat) (eps : ℚ)
    (minSamples : Nat) (useIsolated : Bool) (variancePercentile : Nat) :
    Except String AdaptiveCapacity :=
  match get_optimized_edge_pixels img threshold eps minSamples useIsolated with
  | .error e => .error e
  | .ok edgeCoords =>
    if 100 < variancePercentile then
      .error ("Error: percentile out of range")
    else
      let varianceThreshold :=
        calculate_adaptive_threshold img edgeCoords variancePercentile
      let sampleSize := min 30 edgeCoords.length
      let highCount := ((edgeCoords.take sampleSize).filter fun c =>
        calculate_edge_strength img c.1 c.2 ≥ varianceThreshold).length
      let totalPixels := edgeCoords.length
      let estimatedHigh := highCount * totalPixels / sampleSize
      let estimatedLow := totalPixels - estimatedHigh
      let maxBits := estimatedHigh * 4 + estimatedLow * 3
      .ok ⟨totalPixels, estimatedHigh, estimatedLow,
        ((maxBits : Int) - 24) / 8, maxBits⟩

/-- The fields of the `get_capacity_clustered` result that the claims
    mention. -/
structure ClusteredCapacity where
  edge_pixels : Nat
  max_chars : Int
deriving DecidableEq, Repr

/-- `EdgeClustering.get_capacity_clustered`: 3 bits per selected
    coordinate, 16 reserved for the length prefix, floor-divided by 8
    (divisor positive, so `Int.ediv` matches Python `//`). -/
def get_capacity_clustered (img : Raster) (threshold : Nat) (eps : ℚ)
    (minSamples : Nat) (useIsolated : Bool) :
    Except String ClusteredCapacity :=
  match get_optimized_edge_pixels img threshold eps minSamples useIsolated with
  | .error e => .error e
  | .ok coords =>
    .ok ⟨coords.length, ((coords.length * 3 : Int) - 16) / 8⟩

/-! ## Concrete test rasters -/

/-- A row of gray pixels (R = G = B, so the PIL luma is the value itself). -/
def mkGrayRow (vals : List Nat) : List Pixel := vals.map fun v => ⟨v, v, v⟩

/-- An 8×10 raster with a sharp vertical step: columns 0–3 black,
    columns 4–7 at 200.  Its edge set is the two columns x = 3, 4
    (y = 1..8), one DBSCAN cluster for eps = 5, min_samples = 2, and all
    sixteen coordinates share the same neighborhood variance. -/
def testR1 : Raster :=
  (List.range 10).map fun _ =>
    mkGrayRow ((List.range 8).map fun x => if x ≥ 4 then 200 else 0)

/-- An 8×8 step raster like `testR1` but with two perturbed pixels,
    v(5,2) = 150 and v(5,5) = 210, giving the twelve edge coordinates
    three distinct variance levels: var(4,1..3) < var(3,*) < var(4,4..6). -/
def testR2 : Raster :=
  [mkGrayRow [0,0,0,0,200,200,200,200],
   mkGrayRow [0,0,0,0,200,200,200,200],
   mkGrayRow [0,0,0,0,200,150,200,200],
   mkGrayRow [0,0,0,0,200,200,200,200],
   mkGrayRow [0,0,0,0,200,200,200,200],
   mkGrayRow [0,0,0,0,200,210,200,200],
   mkGrayRow [0,0,0,0,200,200,200,200],
   mkGrayRow [0,0,0,0,200,200,200,200]]

/-- A 12×9 raster: vertical step at x = 4 plus a single bright dot at
    (1, 4).  At threshold 100 the edge set is the two stripe columns
    (14 coordinates) plus the dot's plus-shaped halo (1,3), (1,5), (2,4);
    with eps = 4/5 the three halo points are isolated (noise) while the
    stripe clusters for min_samples = 3 but not for min_samples = 4. -/
def testR3 : Raster :=
  (List.range 9).map fun y =>
    mkGrayRow ((List.range 12).map fun x =>
      if x ≥ 4 then 200 else if x = 1 ∧ y = 4 then 200 else 0)

/-- A 2×2 raster (no interior pixel for the Sobel operator). -/
def tinyR : Raster :=
  [mkGrayRow [10, 200], mkGrayRow [200, 10]]

/-- A flat 4×4 raster: every Sobel gradient is 0, so the edge list is
    empty at any threshold. -/
def flatR : Raster :=
  (List.range 4).map fun _ => mkGrayRow [90, 90, 90, 90]

/-- The stego raster produced by hiding "A" in `testR1`
    (threshold 50, eps 5, min_samples 2, grouped, percentile 0), written
    out literally; `encode_testR1_ok` below verifies it against the
    encoder. -/
def stegoR1 : Raster :=
  [mkGrayRow [0,0,0,0,200,200,200,200],
   [⟨0,0,0⟩,⟨0,0,0⟩,⟨0,0,0⟩,⟨0,0,0⟩,⟨201,200,200⟩,⟨200,200,200⟩,⟨200,200,200⟩,⟨200,200,200⟩],
   [⟨0,0,0⟩,⟨0,0,0⟩,⟨0,0,0⟩,⟨0,0,0⟩,⟨201,200,200⟩,⟨200,200,200⟩,⟨200,200,200⟩,⟨200,200,200⟩],
   mkGrayRow [0,0,0,0,200,200,200,200],
   mkGrayRow [0,0,0,0,200,200,200,200],
   mkGrayRow [0,0,0,0,200,200,200,200],
   [⟨0,0,0⟩,⟨0,0,0⟩,⟨0,0,0⟩,⟨1,0,0⟩,⟨200,200,200⟩,⟨200,200,200⟩,⟨200,200,200⟩,⟨200,200,200⟩],
   mkGrayRow [0,0,0,0,200,200,200,200],
   mkGrayRow [0,0,0,0,200,200,200,200],
   mkGrayRow [0,0,0,0,200,200,200,200]]

/-- The stego raster produced by hiding "A" in `testR2`
    (threshold 50, eps 5, min_samples 2, grouped, percentile 50), written
    out literally; `encode_testR2_ok` below verifies it against the
    encoder. -/
def stegoR2 : Raster :=
  [mkGrayRow [0,0,0,0,200,200,200,200],
   [⟨0,0,0⟩,⟨0,0,0⟩,⟨0,0,0⟩,⟨0,0,0⟩,⟨201,201,200⟩,⟨200,200,200⟩,⟨200,200,200⟩,⟨200,200,200⟩],
   [⟨0,0,0⟩,⟨0,0,0⟩,⟨0,0,0⟩,⟨0,0,0⟩,⟨200,201,200⟩,⟨150,150,150⟩,⟨200,200,200⟩,⟨200,200,200⟩],
   [⟨0,0,0⟩,⟨0,0,0⟩,⟨0,0,0⟩,⟨0,0,0⟩,⟨200,201,200⟩,⟨200,200,200⟩,⟨200,200,200⟩,⟨200,200,200⟩],
   [⟨0,0,0⟩,⟨0,0,0⟩,⟨0,0,0⟩,⟨0,0,0⟩,⟨200,200,201⟩,⟨200,200,200⟩,⟨200,200,200⟩,⟨200,200,200⟩],
   mkGrayRow [0,0,0,0,200,210,200,200],
   [⟨0,0,0⟩,⟨0,0,0⟩,⟨0,0,0⟩,⟨1,0,0⟩,⟨200,200,200⟩,⟨200,200,200⟩,⟨200,200,200⟩,⟨200,200,200⟩],
   mkGrayRow [0,0,0,0,200,200,200,200]]

/-- The coordinate list the selector returns on `testR1`
    (both for the cover and for `stegoR1`). -/
def coordsR1s : List (Nat × Nat) :=
  [(3,1),(3,2),(3,3),(3,4),(3,5),(3,6),(3,7),(3,8),
   (4,1),(4,2),(4,3),(4,4),(4,5),(4,6),(4,7),(4,8)]

/-- The coordinate list the selector returns on `testR2`. -/
def coordsR2s : List (Nat × Nat) :=
  [(3,1),(3,2),(3,3),(3,4),(3,5),(3,6),(4,1),(4,2),(4,3),(4,4),(4,5),(4,6)]

/-- The raw (row-major) edge list of `testR2` at threshold 50. -/
def allR2 : List (Nat × Nat) :=
  [(3,1),(4,1),(3,2),(4,2),(3,3),(4,3),(3,4),(4,4),(3,5),(4,5),(3,6),(4,6)]

/-! ## Bit-string lemmas -/

theorem bitsToNat_foldl (l : List Bool) (z : Nat) :
    l.foldl (fun acc b => 2 * acc + (if b then 1 else 0)) z =
      z * 2 ^ l.length + bitsToNat l := by
  induction l generalizing z with
  | nil => simp [bitsToNat]
  | cons b t ih =>
    simp only [List.foldl_cons, bitsToNat, List.length_cons]
    rw [ih, ih (2 * 0 + _)]
    ring

theorem bitsToNat_cons (b : Bool) (l : List Bool) :
    bitsToNat (b :: l) = (if b then 1 else 0) * 2 ^ l.length + bitsToNat l := by
  show List.foldl _ _ _ = _
  rw [List.foldl_cons, bitsToNat_foldl]
  norm_num

theorem bitsToNat_append (l1 l2 : List Bool) :
    bitsToNat (l1 ++ l2) = bitsToNat l1 * 2 ^ l2.length + bitsToNat l2 := by
  show List.foldl _ _ _ = _
  rw [List.foldl_append, bitsToNat_foldl]
  rfl

theorem natToBitsAux_length (w : Nat) : ∀ (m : Nat) (acc : List Bool),
    (natToBitsAux w m acc).length = w + acc.length := by
  induction w with
  | zero => intro m acc; simp [natToBitsAux]
  | succ w ih =>
    intro m acc
    simp only [natToBitsAux]
    rw [ih]
    simp only [List.length_cons]
    omega

theorem mod_two_pow_succ (m w : Nat) :
    m % 2 ^ (w + 1) = 2 * (m / 2 % 2 ^ w) + m % 2 := by
  have h1 : 2 * (m / 2) % (2 * 2 ^ w) = 2 * (m / 2 % 2 ^ w) :=
    Nat.mul_mod_mul_left 2 (m / 2) (2 ^ w)
  have h2 : 0 < 2 ^ w := Nat.pos_pow_of_pos w (by norm_num)
  have h3 : m / 2 % 2 ^ w < 2 ^ w := Nat.mod_lt _ h2
  have h4 : m % 2 < 2 := Nat.mod_lt _ (by norm_num)
  have h5 : m = 2 * (m / 2) + m % 2 := (Nat.div_add_mod m 2).symm
  have h6 : 2 ^ (w + 1) = 2 * 2 ^ w := by rw [pow_succ]; ring
  rw [h6]
  conv_lhs => rw [h5]
  rw [Nat.add_mod, h1, Nat.mod_eq_of_lt (by omega : m % 2 < 2 * 2 ^ w)]
  exact Nat.mod_eq_of_lt (by omega)

theorem bitsToNat_natToBitsAux (w : Nat) : ∀ (m : Nat) (acc : List Bool),
    bitsToNat (natToBitsAux w m acc) =
      m % 2 ^ w * 2 ^ acc.length + bitsToNat acc := by
  induction w with
  | zero => intro m acc; simp [natToBitsAux, Nat.mod_one]
  | succ w ih =>
    intro m acc
    simp only [natToBitsAux]
    rw [ih, bitsToNat_cons]
    have hb : (if decide (m % 2 = 1) = true then 1 else 0) = m % 2 := by
      rcases Nat.mod_two_eq_zero_or_one m with h | h <;> simp [h]
    rw [hb, mod_two_pow_succ m w]
    simp only [List.length_cons, pow_succ]
    ring

theorem bitLenAux_le (fuel : Nat) : ∀ (n w : Nat), n < 2 ^ w → n ≤ fuel →
    bitLenAux fuel n ≤ w := by
  induction fuel with
  | zero =>
    intro n w _ hn
    interval_cases n
    simp [bitLenAux]
  | succ fuel ih =>
    intro n w hw hn
    simp only [bitLenAux]
    split
    · omega
    · rename_i hne
      have hw1 : 1 ≤ w := by
        by_contra hc
        interval_cases w
        · omega
      have hdiv : n / 2 < 2 ^ (w - 1) := by
        apply Nat.div_lt_of_lt_mul
        have : 2 * 2 ^ (w - 1) = 2 ^ w := by
          rw [← pow_succ']
          congr 1
          omega
        omega
      have := ih (n / 2) (w - 1) hdiv (by omega)
      omega

theorem natToBits_length (w n : Nat) (hw : 1 ≤ w) (hn : n < 2 ^ w) :
    (natToBits w n).length = w := by
  have h1 : bitLen n ≤ w := by
    unfold bitLen
    have := bitLenAux_le n n w hn le_rfl
    omega
  unfold natToBits
  rw [natToBitsAux_length]
  simp only [List.length_nil]
  omega

theorem bitsToNat_natToBits (w n : Nat) (hn : n < 2 ^ w) :
    bitsToNat (natToBits w n) = n := by
  unfold natToBits
  rw [bitsToNat_natToBitsAux]
  have h1 : n < 2 ^ max w (bitLen n) := by
    have : 2 ^ w ≤ 2 ^ max w (bitLen n) :=
      Nat.pow_le_pow_right (by norm_num) (le_max_left _ _)
    omega
  simp [bitsToNat, Nat.mod_eq_of_lt h1]

/-! ## Raster write/read lemmas -/

theorem getD_set_list {α : Type} (l : List α) (i j : Nat) (a d : α) :
    (l.set i a).getD j d =
      if i = j ∧ i < l.length then a else l.getD j d := by
  rw [List.getD_eq_getElem?_getD, List.getElem?_set, List.getD_eq_getElem?_getD]
  by_cases h1 : i = j
  · subst h1
    by_cases h2 : i < l.length
    · simp [h2]
    · simp [h2, List.getElem?_eq_none (Nat.le_of_not_lt h2)]
  · simp [h1]

theorem writeChannel_height (img : Raster) (x y c v : Nat) :
    (writeChannel img x y c v).length = img.length := by
  simp [writeChannel]

theorem writeChannel_getD (img : Raster) (x y c v b : Nat) :
    (writeChannel img x y c v).getD b [] =
      if y = b ∧ y < img.length then
        (img.getD y []).set x (setChannel (getPixel img x y) c v)
      else img.getD b [] := by
  unfold writeChannel
  rw [getD_set_list]

theorem writeChannel_rowLen (img : Raster) (x y c v b : Nat) :
    ((writeChannel img x y c v).getD b []).length = (img.getD b []).length := by
  rw [writeChannel_getD]
  split
  · rename_i h
    rw [List.length_set, h.1]
  · rfl

theorem widthOf_eq_getD_zero (img : Raster) :
    Raster.widthOf img = (img.getD 0 []).length := by
  cases img <;> rfl

theorem writeChannel_widthOf (img : Raster) (x y c v : Nat) :
    Raster.widthOf (writeChannel img x y c v) = Raster.widthOf img := by
  rw [widthOf_eq_getD_zero, widthOf_eq_getD_zero, writeChannel_rowLen]

theorem getPixel_writeChannel_ne (img : Raster) (x y c v a b : Nat)
    (h : (a, b) ≠ (x, y)) :
    getPixel (writeChannel img x y c v) a b = getPixel img a b := by
  unfold getPixel
  rw [writeChannel_getD]
  split
  · rename_i hyb
    obtain ⟨rfl, hlt⟩ := hyb
    have hax : a ≠ x := fun hax => h (by rw [hax])
    rw [getD_set_list]
    split
    · rename_i hx
      exact absurd hx.1.symm hax
    · rfl
  · rfl

theorem getPixel_writeChannel_self (img : Raster) (x y c v : Nat)
    (hy : y < img.length) (hx : x < (img.getD y []).length) :
    getPixel (writeChannel img x y c v) x y =
      setChannel (getPixel img x y) c v := by
  unfold getPixel
  rw [writeChannel_getD]
  rw [if_pos ⟨rfl, hy⟩, getD_set_list, if_pos ⟨rfl, hx⟩]
  rfl

theorem channelOf_setChannel_self (p : Pixel) (c v : Nat) (hc : c < 3) :
    channelOf (setChannel p c v) c = v := by
  interval_cases c <;> simp [channelOf, setChannel]

theorem channelOf_setChannel_ne (p : Pixel) (c d v : Nat) (hc : c < 3)
    (hd : d < 3) (hcd : c ≠ d) :
    channelOf (setChannel p c v) d = channelOf p d := by
  interval_cases c <;> interval_cases d <;> simp_all [channelOf, setChannel]

theorem channelAt_writeChannel_self (img : Raster) (x y c v : Nat)
    (hy : y < img.length) (hx : x < (img.getD y []).length) (hc : c < 3) :
    channelAt (writeChannel img x y c v) (x, y, c) = v := by
  unfold channelAt
  simp only
  rw [getPixel_writeChannel_self img x y c v hy hx,
    channelOf_setChannel_self _ _ _ hc]

theorem getPixel_writeChannel_oob (img : Raster) (x y c v : Nat)
    (h : ¬(y < img.length ∧ x < (img.getD y []).length)) :
    getPixel (writeChannel img x y c v) x y = getPixel img x y := by
  unfold getPixel
  rw [writeChannel_getD]
  split
  · rename_i hyb
    rw [getD_set_list]
    split
    · rename_i hx
      exact absurd ⟨hyb.2, hx.2⟩ h
    · rfl
  · rfl

theorem channelAt_writeChannel_ne (img : Raster) (x y c v : Nat) (e : Entry)
    (hc : c < 3) (he : e.2.2 < 3) (hne : e ≠ (x, y, c)) :
    channelAt (writeChannel img x y c v) e = channelAt img e := by
  obtain ⟨a, b, d⟩ := e
  unfold channelAt
  simp only at he ⊢
  by_cases hab : (a, b) = (x, y)
  · have ha : a = x := congrArg Prod.fst hab
    have hb : b = y := congrArg Prod.snd hab
    subst ha
    subst hb
    have hcd : c ≠ d := by
      intro hcd
      exact hne (by rw [hcd])
    by_cases hin : b < img.length ∧ a < (img.getD b []).length
    · rw [getPixel_writeChannel_self img a b c v hin.1 hin.2,
        channelOf_setChannel_ne _ _ _ _ hc he hcd]
    · rw [getPixel_writeChannel_oob img a b c v hin]
  · rw [getPixel_writeChannel_ne img x y c v a b hab]

/-- A channel after a write is either unchanged or the written value
    (no bounds assumptions). -/
theorem channelAt_writeChannel_cases (img : Raster) (x y c v : Nat) (e : Entry)
    (hc : c < 3) (he : e.2.2 < 3) :
    channelAt (writeChannel img x y c v) e = channelAt img e ∨
      (e = (x, y, c) ∧ channelAt (writeChannel img x y c v) e = v) := by
  by_cases hne : e = (x, y, c)
  · subst hne
    by_cases hin : y < img.length ∧ x < (img.getD y []).length
    · exact Or.inr ⟨rfl, channelAt_writeChannel_self img x y c v hin.1 hin.2 hc⟩
    · left
      unfold channelAt
      simp only
      rw [getPixel_writeChannel_oob img x y c v hin]
  · exact Or.inl (channelAt_writeChannel_ne img x y c v e hc he hne)

/-! ## Coordinate list lemmas -/

theorem mem_allCoords {img : Raster} {c : Nat × Nat} :
    c ∈ allCoords img ↔
      c.1 < Raster.widthOf img ∧ c.2 < Raster.heightOf img := by
  unfold allCoords
  simp only [List.mem_flatMap, List.mem_map, List.mem_range]
  constructor
  · rintro ⟨y, hy, x, hx, rfl⟩
    exact ⟨hx, hy⟩
  · rintro ⟨h1, h2⟩
    exact ⟨c.2, h2, c.1, h1, rfl⟩

theorem allCoords_nodup (img : Raster) : (allCoords img).Nodup := by
  unfold allCoords
  rw [List.nodup_flatMap]
  constructor
  · intro y _
    exact List.Nodup.map (fun a b h => congrArg Prod.fst h) (List.nodup_range _)
  · apply List.Pairwise.imp _ (List.nodup_range (Raster.heightOf img))
    intro y1 y2 hne
    rw [Function.onFun, List.disjoint_left]
    rintro c hc1 hc2
    simp only [List.mem_map, List.mem_range] at hc1 hc2
    obtain ⟨x1, _, rfl⟩ := hc1
    obtain ⟨x2, _, h2⟩ := hc2
    exact hne (congrArg Prod.snd h2).symm

theorem mem_entriesOf {coords : List (Nat × Nat)} {e : Entry} :
    e ∈ entriesOf coords ↔ (e.1, e.2.1) ∈ coords ∧ e.2.2 < 3 := by
  unfold entriesOf
  rw [List.mem_flatMap]
  constructor
  · rintro ⟨c, hc, hmem⟩
    simp only [List.mem_cons, List.not_mem_nil, or_false] at hmem
    rcases hmem with rfl | rfl | rfl <;> simpa using hc
  · rintro ⟨hmem, hlt⟩
    refine ⟨(e.1, e.2.1), hmem, ?_⟩
    obtain ⟨a, b, d⟩ := e
    simp only at hlt ⊢
    interval_cases d <;> simp

theorem entriesOf_nodup {coords : List (Nat × Nat)} (h : coords.Nodup) :
    (entriesOf coords).Nodup := by
  unfold entriesOf
  rw [List.nodup_flatMap]
  constructor
  · intro c _
    simp
  · apply List.Pairwise.imp _ h
    intro c1 c2 hne
    rw [Function.onFun, List.disjoint_left]
    rintro e he1 he2
    simp only [List.mem_cons, List.not_mem_nil, or_false] at he1 he2
    rcases he1 with rfl | rfl | rfl <;>
      rcases he2 with h2 | h2 | h2 <;>
      exact hne (by simpa using (congrArg (fun p => (p.1, p.2.1)) h2))

theorem length_entriesOf (coords : List (Nat × Nat)) :
    (entriesOf coords).length = coords.length * 3 := by
  unfold entriesOf
  induction coords with
  | nil => simp
  | cons c t ih => simp [ih]; ring

/-! ## Insertion sort lemmas -/

theorem insertCoord_perm (a : Nat × Nat) (l : List (Nat × Nat)) :
    (insertCoord a l).Perm (a :: l) := by
  induction l with
  | nil => simp [insertCoord]
  | cons b t ih =>
    unfold insertCoord
    split
    · exact List.Perm.refl _
    · exact (ih.cons b).trans (List.Perm.swap a b t)

theorem sortCoords_perm (l : List (Nat × Nat)) : (sortCoords l).Perm l := by
  induction l with
  | nil => simp [sortCoords]
  | cons a t ih =>
    exact (insertCoord_perm a (sortCoords t)).trans (ih.cons a)

theorem sortCoords_nodup {l : List (Nat × Nat)} (h : l.Nodup) :
    (sortCoords l).Nodup := ((sortCoords_perm l).nodup_iff).mpr h

theorem sortCoords_length (l : List (Nat × Nat)) :
    (sortCoords l).length = l.length := (sortCoords_perm l).length_eq

theorem mem_sortCoords {l : List (Nat × Nat)} {c : Nat × Nat} :
    c ∈ sortCoords l ↔ c ∈ l := (sortCoords_perm l).mem_iff

theorem coordLe_total (a b : Nat × Nat) :
    coordLe a b = true ∨ coordLe b a = true := by
  unfold coordLe
  simp only [Bool.or_eq_true, decide_eq_true_eq, Bool.and_eq_true]
  omega

theorem coordLe_trans {a b c : Nat × Nat} (h1 : coordLe a b = true)
    (h2 : coordLe b c = true) : coordLe a c = true := by
  unfold coordLe at *
  simp only [Bool.or_eq_true, decide_eq_true_eq, Bool.and_eq_true] at *
  omega

theorem insertCoord_pairwise {a : Nat × Nat} {l : List (Nat × Nat)}
    (h : List.Pairwise (fun x y => coordLe x y = true) l) :
    List.Pairwise (fun x y => coordLe x y = true) (insertCoord a l) := by
  induction l with
  | nil => simp [insertCoord]
  | cons b t ih =>
    rw [List.pairwise_cons] at h
    unfold insertCoord
    split
    · rename_i hab
      refine List.Pairwise.cons ?_ (List.Pairwise.cons h.1 h.2)
      intro x hx
      rcases List.mem_cons.mp hx with rfl | hx
      · exact hab
      · exact coordLe_trans hab (h.1 x hx)
    · rename_i hab
      have hba : coordLe b a = true := by
        rcases coordLe_total a b with hc | hc
        · exact absurd hc hab
        · exact hc
      refine List.Pairwise.cons ?_ (ih h.2)
      intro x hx
      rw [(insertCoord_perm a t).mem_iff] at hx
      rcases List.mem_cons.mp hx with rfl | hx
      · exact hba
      · exact h.1 x hx

theorem sortCoords_pairwise (l : List (Nat × Nat)) :
    List.Pairwise (fun x y => coordLe x y = true) (sortCoords l) := by
  induction l with
  | nil => simp [sortCoords]
  | cons a t ih => exact insertCoord_pairwise ih

/-! ## Pipeline inversion lemmas -/

theorem cluster_ok_elim {img : Raster} {T : Nat} {eps : ℚ} {ms : Nat}
    {res : ClusterResult}
    (h : cluster_edge_pixels img T eps ms = .ok res) :
    0 < eps ∧ 2 ≤ ms ∧ T ≤ 255 ∧
    res.all_coords = edgePixelList img T ∧
    res.all_coords ≠ [] ∧
    res.clustered_coords =
      sortCoords (res.all_coords.filter
        (coordAssigned img res.all_coords eps ms)) ∧
    res.noise_coords =
      sortCoords (res.all_coords.filter
        (fun c => !(coordAssigned img res.all_coords eps ms c))) := by
  unfold cluster_edge_pixels at h
  split at h
  · exact absurd h (by simp)
  · rename_i hparam
    push_neg at hparam
    split at h
    · exact absurd h (by simp)
    · rename_i hT
      simp only [getEdgePixels] at h
      split at h
      · exact absurd h (by simp)
      · rename_i hlen
        rw [Except.ok.injEq] at h
        subst h
        refine ⟨hparam.1, hparam.2, by omega, rfl, ?_, rfl, rfl⟩
        intro hnil
        have hempty : edgePixelList img T = [] := hnil
        rw [hempty] at hlen
        simp at hlen

theorem get_optimized_ok_elim {img : Raster} {T : Nat} {eps : ℚ} {ms : Nat}
    {iso : Bool} {coords : List (Nat × Nat)}
    (h : get_optimized_edge_pixels img T eps ms iso = .ok coords) :
    ∃ res, cluster_edge_pixels img T eps ms = .ok res ∧
      coords = (if iso then res.noise_coords else res.clustered_coords) ∧
      coords ≠ [] := by
  unfold get_optimized_edge_pixels at h
  cases hres : cluster_edge_pixels img T eps ms with
  | error e =>
    rw [hres] at h
    exact absurd h (by simp)
  | ok res =>
    rw [hres] at h
    simp only at h
    refine ⟨res, rfl, ?_⟩
    cases iso with
    | false =>
      simp only [if_neg Bool.false_ne_true] at h ⊢
      split at h
      · exact absurd h (by simp)
      · rename_i hne
        rw [Except.ok.injEq] at h
        subst h
        exact ⟨rfl, fun hnil => hne (by rw [hnil]; rfl)⟩
    | true =>
      show coords = res.noise_coords ∧ coords ≠ []
      split at h
      · split at h
        · exact absurd h (by simp)
        · rename_i hne
          rw [Except.ok.injEq] at h
          subst h
          exact ⟨rfl, fun hnil => hne (by rw [hnil]; rfl)⟩
      · rename_i hne
        exact absurd rfl hne

/-- The selected coordinate list is duplicate-free and lies inside the
    raster. -/
theorem get_optimized_coords_wf {img : Raster} {T : Nat} {eps : ℚ} {ms : Nat}
    {iso : Bool} {coords : List (Nat × Nat)}
    (h : get_optimized_edge_pixels img T eps ms iso = .ok coords) :
    coords.Nodup ∧
      ∀ c ∈ coords, c.1 < Raster.widthOf img ∧ c.2 < Raster.heightOf img := by
  obtain ⟨res, hres, hcoords, -⟩ := get_optimized_ok_elim h
  obtain ⟨-, -, -, hall, -, hclus, hnoise⟩ := cluster_ok_elim hres
  have hedge_nodup : res.all_coords.Nodup := by
    rw [hall]
    exact (allCoords_nodup img).filter _
  have hedge_mem : ∀ c ∈ res.all_coords,
      c.1 < Raster.widthOf img ∧ c.2 < Raster.heightOf img := by
    intro c hc
    rw [hall] at hc
    unfold edgePixelList at hc
    exact mem_allCoords.mp (List.mem_filter.mp hc).1
  constructor
  · rw [hcoords]
    split
    · rw [hnoise]
      exact sortCoords_nodup (hedge_nodup.filter _)
    · rw [hclus]
      exact sortCoords_nodup (hedge_nodup.filter _)
  · intro c hc
    rw [hcoords] at hc
    apply hedge_mem
    split at hc
    · rw [hnoise] at hc
      rw [mem_sortCoords] at hc
      exact (List.mem_filter.mp hc).1
    · rw [hclus] at hc
      rw [mem_sortCoords] at hc
      exact (List.mem_filter.mp hc).1

/-! ## Small arithmetic lemmas -/

theorem bitsToNat_lt (l : List Bool) : bitsToNat l < 2 ^ l.length := by
  induction l with
  | nil => simp [bitsToNat]
  | cons b t ih =>
    rw [bitsToNat_cons]
    simp only [List.length_cons, pow_succ]
    split <;> omega

theorem div4_embed_two (v t : Nat) (ht : t < 4) : (v / 4 * 4 + t) / 4 = v / 4 := by
  omega

theorem div4_embed_one (v b : Nat) (hb : b < 2) : (v / 2 * 2 + b) / 4 = v / 4 := by
  omega

theorem div2_embed_one (v b : Nat) (hb : b < 2) : (v / 2 * 2 + b) / 2 = v / 2 := by
  omega

theorem div4_eq_diff_le (a b : Nat) (h : a / 4 = b / 4) :
    a ≤ b + 3 ∧ b ≤ a + 3 := by
  omega

/-- The three behaviours of `adaptive_embed_bits` when bits remain:
    2 bits into the 2 LSBs at high variance with at least 2 bits left,
    otherwise (low variance, or a single final bit) 1 bit into the LSB. -/
theorem adaptive_embed_bits_cases (v : Nat) (bits : List Bool) (idx : Nat)
    (s thr : ℚ) (h : idx < bits.length) :
    (thr ≤ s ∧ idx + 2 ≤ bits.length ∧
      adaptive_embed_bits v bits idx s thr =
        (v / 4 * 4 + bitsToNat ((bits.drop idx).take 2), 2, idx + 2)) ∨
    ((¬thr ≤ s ∨ idx + 1 = bits.length) ∧
      adaptive_embed_bits v bits idx s thr =
        (v / 2 * 2 + (if bits.getD idx false then 1 else 0), 1, idx + 1)) := by
  unfold adaptive_embed_bits
  by_cases hs : s ≥ thr
  · rw [if_pos hs]
    by_cases h2 : idx + 2 ≤ bits.length
    · left
      refine ⟨hs, h2, ?_⟩
      rw [if_pos (by omega : min 2 (bits.length - idx) = 2)]
    · right
      refine ⟨Or.inr (by omega), ?_⟩
      rw [if_neg (by omega : ¬min 2 (bits.length - idx) = 2),
        if_pos (by omega : min 2 (bits.length - idx) = 1)]
  · rw [if_neg hs, if_pos h]
    exact Or.inr ⟨Or.inl hs, rfl⟩

/-- The width consumed at a step is 1 or 2, and the index stays within
    the bit string. -/
theorem adaptive_embed_bits_width (v : Nat) (bits : List Bool) (idx : Nat)
    (s thr : ℚ) (h : idx < bits.length) :
    let r := adaptive_embed_bits v bits idx s thr
    (0 < r.2.1 ∧ r.2.2 = idx + r.2.1 ∧ idx + r.2.1 ≤ bits.length) := by
  rcases adaptive_embed_bits_cases v bits idx s thr h with ⟨_, h2, heq⟩ | ⟨_, heq⟩ <;>
    rw [heq] <;> simp <;> omega

/-! ## Fold-preservation lemmas -/

theorem embedHeader_height (pairs : List (Entry × Bool)) : ∀ (im : Raster),
    (embedHeader im pairs).length = im.length := by
  induction pairs with
  | nil => intro im; rfl
  | cons p t ih =>
    intro im
    obtain ⟨e, b⟩ := p
    simp only [embedHeader]
    rw [ih]
    exact writeChannel_height im e.1 e.2.1 e.2.2 _

theorem embedHeader_rowLen (pairs : List (Entry × Bool)) : ∀ (im : Raster)
    (b : Nat),
    ((embedHeader im pairs).getD b []).length = (im.getD b []).length := by
  induction pairs with
  | nil => intro im b; rfl
  | cons p t ih =>
    intro im b
    obtain ⟨e, bb⟩ := p
    simp only [embedHeader]
    rw [ih]
    exact writeChannel_rowLen im e.1 e.2.1 e.2.2 _ b

theorem embedHeader_channelAt_not_mem (pairs : List (Entry × Bool)) :
    ∀ (im : Raster) (e : Entry), e.2.2 < 3 →
    (∀ p ∈ pairs, p.1.2.2 < 3) →
    (∀ p ∈ pairs, p.1 ≠ e) →
    channelAt (embedHeader im pairs) e = channelAt im e := by
  induction pairs with
  | nil => intro im e _ _ _; rfl
  | cons p t ih =>
    intro im e he3 hp3 hnot
    obtain ⟨q, b⟩ := p
    simp only [embedHeader]
    rw [ih _ e he3 (fun r hr => hp3 r (List.mem_cons_of_mem _ hr))
      (fun r hr => hnot r (List.mem_cons_of_mem _ hr))]
    exact channelAt_writeChannel_ne im q.1 q.2.1 q.2.2 _ e
      (hp3 (q, b) (List.mem_cons_self _ _)) he3
      (fun hh => (hnot (q, b) (List.mem_cons_self _ _)) (by rw [hh]))

theorem embedHeader_getPixel_not_mem (pairs : List (Entry × Bool)) :
    ∀ (im : Raster) (a b : Nat),
    (∀ p ∈ pairs, (p.1.1, p.1.2.1) ≠ (a, b)) →
    getPixel (embedHeader im pairs) a b = getPixel im a b := by
  induction pairs with
  | nil => intro im a b _; rfl
  | cons p t ih =>
    intro im a b hnot
    obtain ⟨q, bb⟩ := p
    simp only [embedHeader]
    rw [ih _ a b (fun r hr => hnot r (List.mem_cons_of_mem _ hr))]
    exact getPixel_writeChannel_ne im q.1 q.2.1 q.2.2 _ a b
      (hnot (q, bb) (List.mem_cons_self _ _)).symm

/-- Each header entry carries its bit in the LSB after the header fold. -/
theorem embedHeader_channelAt_mem (pairs : List (Entry × Bool)) :
    ∀ (im : Raster) (p : Entry × Bool), p ∈ pairs →
    (pairs.map Prod.fst).Nodup →
    (∀ q ∈ pairs, q.1.2.2 < 3) →
    (∀ q ∈ pairs, q.1.2.1 < im.length ∧ q.1.1 < (im.getD q.1.2.1 []).length) →
    channelAt (embedHeader im pairs) p.1 =
      channelAt im p.1 / 2 * 2 + (if p.2 then 1 else 0) := by
  induction pairs with
  | nil =>
    intro im p hp _ _ _
    exact absurd hp (List.not_mem_nil p)
  | cons q t ih =>
    intro im p hp hnd h3 hb
    obtain ⟨qe, qb⟩ := q
    simp only [List.map_cons, List.nodup_cons] at hnd
    rcases List.mem_cons.mp hp with hpq | hpt
    · rw [hpq]
      simp only [embedHeader]
      rw [embedHeader_channelAt_not_mem t _ (qe, qb).1
        (h3 (qe, qb) (List.mem_cons_self _ _))
        (fun r hr => h3 r (List.mem_cons_of_mem _ hr))
        (fun r hr hre => hnd.1 (by
          have hre2 : r.1 = qe := hre
          exact hre2 ▸ List.mem_map_of_mem Prod.fst hr))]
      exact channelAt_writeChannel_self im qe.1 qe.2.1 qe.2.2 _
        (hb (qe, qb) (List.mem_cons_self _ _)).1
        (hb (qe, qb) (List.mem_cons_self _ _)).2
        (h3 (qe, qb) (List.mem_cons_self _ _))
    · simp only [embedHeader]
      rw [ih _ p hpt hnd.2
        (fun r hr => h3 r (List.mem_cons_of_mem _ hr))
        (fun r hr => by
          rw [writeChannel_height, writeChannel_rowLen]
          exact hb r (List.mem_cons_of_mem _ hr))]
      congr 1
      rw [channelAt_writeChannel_ne im qe.1 qe.2.1 qe.2.2 _ p.1
        (h3 (qe, qb) (List.mem_cons_self _ _))
        (h3 p (List.mem_cons_of_mem _ hpt))
        (fun hh => hnd.1 (by
          have hh2 : p.1 = qe := hh
          exact hh2 ▸ List.mem_map_of_mem Prod.fst hpt))]

theorem payloadLoop_dims (orig : Raster) (bits : List Bool) (thr : ℚ) :
    ∀ (es : List Entry) (im fin : Raster) (idx j : Nat),
    payloadLoop orig bits thr es im idx = some (fin, j) →
    fin.length = im.length ∧ ∀ b, (fin.getD b []).length = (im.getD b []).length := by
  intro es
  induction es with
  | nil =>
    intro im fin idx j h
    unfold payloadLoop at h
    split at h
    · rw [Option.some.injEq, Prod.mk.injEq] at h
      rw [h.1]
      exact ⟨rfl, fun b => rfl⟩
    · exact absurd h (by simp)
  | cons e rest ih =>
    intro im fin idx j h
    unfold payloadLoop at h
    split at h
    · rw [Option.some.injEq, Prod.mk.injEq] at h
      rw [h.1]
      exact ⟨rfl, fun b => rfl⟩
    · simp only at h
      split at h
      · obtain ⟨h1, h2⟩ := ih _ _ _ _ h
        rw [h1, writeChannel_height]
        refine ⟨rfl, fun b => ?_⟩
        rw [h2 b, writeChannel_rowLen]
      · exact ih _ _ _ _ h

theorem payloadLoop_channelAt_not_mem (orig : Raster) (bits : List Bool)
    (thr : ℚ) : ∀ (es : List Entry) (im fin : Raster) (idx j : Nat) (e : Entry),
    payloadLoop orig bits thr es im idx = some (fin, j) →
    e.2.2 < 3 → (∀ q ∈ es, q.2.2 < 3) → (∀ q ∈ es, q ≠ e) →
    channelAt fin e = channelAt im e := by
  intro es
  induction es with
  | nil =>
    intro im fin idx j e h _ _ _
    unfold payloadLoop at h
    split at h
    · rw [Option.some.injEq, Prod.mk.injEq] at h
      rw [h.1]
    · exact absurd h (by simp)
  | cons q rest ih =>
    intro im fin idx j e h he3 h3 hne
    unfold payloadLoop at h
    split at h
    · rw [Option.some.injEq, Prod.mk.injEq] at h
      rw [h.1]
    · simp only at h
      split at h
      · rw [ih _ _ _ _ e h he3
          (fun r hr => h3 r (List.mem_cons_of_mem _ hr))
          (fun r hr => hne r (List.mem_cons_of_mem _ hr))]
        exact channelAt_writeChannel_ne im q.1 q.2.1 q.2.2 _ e
          (h3 q (List.mem_cons_self _ _)) he3
          (fun hh => (hne q (List.mem_cons_self _ _)) (by rw [hh]))
      · exact ih _ _ _ _ e h he3
          (fun r hr => h3 r (List.mem_cons_of_mem _ hr))
          (fun r hr => hne r (List.mem_cons_of_mem _ hr))

theorem payloadLoop_getPixel_not_mem (orig : Raster) (bits : List Bool)
    (thr : ℚ) : ∀ (es : List Entry) (im fin : Raster) (idx j : Nat) (a b : Nat),
    payloadLoop orig bits thr es im idx = some (fin, j) →
    (∀ q ∈ es, (q.1, q.2.1) ≠ (a, b)) →
    getPixel fin a b = getPixel im a b := by
  intro es
  induction es with
  | nil =>
    intro im fin idx j a b h _
    unfold payloadLoop at h
    split at h
    · rw [Option.some.injEq, Prod.mk.injEq] at h
      rw [h.1]
    · exact absurd h (by simp)
  | cons q rest ih =>
    intro im fin idx j a b h hne
    unfold payloadLoop at h
    split at h
    · rw [Option.some.injEq, Prod.mk.injEq] at h
      rw [h.1]
    · simp only at h
      split at h
      · rw [ih _ _ _ _ a b h (fun r hr => hne r (List.mem_cons_of_mem _ hr))]
        exact getPixel_writeChannel_ne im q.1 q.2.1 q.2.2 _ a b
          (hne q (List.mem_cons_self _ _)).symm
      · exact ih _ _ _ _ a b h (fun r hr => hne r (List.mem_cons_of_mem _ hr))

/-- A successful payload loop always ends with the bit index exactly at
    the end of the bit string. -/
theorem payloadLoop_idx_le (orig : Raster) (bits : List Bool) (thr : ℚ) :
    ∀ (es : List Entry) (im fin : Raster) (idx j : Nat),
    idx ≤ bits.length →
    payloadLoop orig bits thr es im idx = some (fin, j) →
    j = bits.length := by
  intro es
  induction es with
  | nil =>
    intro im fin idx j hidx h
    unfold payloadLoop at h
    split at h
    · rw [Option.some.injEq, Prod.mk.injEq] at h
      omega
    · exact absurd h (by simp)
  | cons e rest ih =>
    intro im fin idx j hidx h
    unfold payloadLoop at h
    split at h
    · rw [Option.some.injEq, Prod.mk.injEq] at h
      omega
    · rename_i hlt
      simp only at h
      have hw := adaptive_embed_bits_width (channelAt orig e) bits idx
        (calculate_edge_strength orig e.1 e.2.1) thr (by omega)
      split at h
      · exact ih _ _ _ _ (by omega) h
      · exact ih _ _ _ _ (by omega) h

/-- Inversion of a successful encode: all checks passed, the header was
    embedded over the first cursor entries, and the payload loop consumed
    the whole payload bit string. -/
theorem encode_ok_elim {img : Raster} {M : List Nat} {T : Nat} {eps : ℚ}
    {ms : Nat} {iso : Bool} {p : Nat} {s : Raster}
    (h : encode_message img M T eps ms iso p = .ok s) :
    ∃ coords, get_optimized_edge_pixels img T eps ms iso = .ok coords ∧
      M.length ≤ 65535 ∧ p ≤ 100 ∧
      (natToBits 16 M.length ++ natToBits 8 p).length +
        (M.flatMap (natToBits 8)).length ≤ coords.length * 3 ∧
      payloadLoop img (M.flatMap (natToBits 8))
        (calculate_adaptive_threshold img coords p)
        ((entriesOf coords).drop
          (natToBits 16 M.length ++ natToBits 8 p).length)
        (embedHeader img
          ((entriesOf coords).zip (natToBits 16 M.length ++ natToBits 8 p)))
        0 = some (s, (M.flatMap (natToBits 8)).length) := by
  unfold encode_message at h
  split at h
  · exact absurd h (by simp)
  · rename_i coords hcoords
    split at h
    · exact absurd h (by simp)
    · rename_i hlen
      split at h
      · exact absurd h (by simp)
      · rename_i hperc
        simp only [] at h
        split at h
        · exact absurd h (by simp)
        · rename_i hcap
          split at h
          · exact absurd h (by simp)
          · rename_i hhead
            split at h
            · exact absurd h (by simp)
            · rename_i fin bidx hloop
              split at h
              · exact absurd h (by simp)
              · rename_i hfull
                rw [Except.ok.injEq] at h
                have hj : bidx = (M.flatMap (natToBits 8)).length :=
                  payloadLoop_idx_le img _ _ _ _ _ 0 _ (by omega) hloop
                refine ⟨coords, hcoords, by omega, by omega, by omega, ?_⟩
                rw [← h, ← hj]
                exact hloop

/-! ## The payload round-trip -/

theorem bitsToNat_pair (b0 b1 : Bool) :
    bitsToNat [b0, b1] = 2 * (if b0 then 1 else 0) + (if b1 then 1 else 0) := by
  cases b0 <;> cases b1 <;> rfl

theorem decide_if_eq_one (b : Bool) :
    decide ((if b then 1 else 0) = 1) = b := by
  cases b <;> simp

theorem width_two {c : Prop} [Decidable c]
    (h : (if c then 2 else 1 : Nat) = 2) : c := by
  by_cases hc : c
  · exact hc
  · simp [hc] at h

theorem width_one {c : Prop} [Decidable c]
    (h : (if c then 2 else 1 : Nat) = 1) : ¬c := by
  by_cases hc : c
  · simp [hc] at h
  · exact hc

/-- If the number of bits the encoder embedded at each processed cursor
    entry agrees with the number the decoder will extract there, then the
    extracted stream starts with exactly the embedded payload bits. -/
theorem payloadLoop_extract (orig : Raster) (bits : List Bool) (thrE thrD : ℚ) :
    ∀ (es : List Entry) (im fin : Raster) (idx : Nat),
    es.Nodup →
    (∀ e ∈ es, e.2.2 < 3) →
    (∀ e ∈ es, e.2.1 < im.length ∧ e.1 < (im.getD e.2.1 []).length) →
    payloadLoop orig bits thrE es im idx = some (fin, bits.length) →
    encodeWidths orig bits thrE es idx <+: decodeWidths fin thrD es →
    (es.flatMap fun e => adaptive_extract_bits (channelAt fin e)
        (calculate_edge_strength fin e.1 e.2.1) thrD).take (bits.length - idx) =
      bits.drop idx := by
  intro es
  induction es with
  | nil =>
    intro im fin idx _ _ _ h _
    unfold payloadLoop at h
    split at h
    · rw [Option.some.injEq, Prod.mk.injEq] at h
      rw [List.flatMap_nil, List.take_nil, List.drop_eq_nil_of_le (by omega)]
    · exact absurd h (by simp)
  | cons e rest ih =>
    intro im fin idx hnd h3 hb h hw
    rw [List.nodup_cons] at hnd
    by_cases hle : bits.length ≤ idx
    · unfold payloadLoop at h
      rw [if_pos hle] at h
      rw [Option.some.injEq, Prod.mk.injEq] at h
      rw [show bits.length - idx = 0 by omega, List.take_zero,
        List.drop_eq_nil_of_le (by omega)]
    · unfold payloadLoop at h
      rw [if_neg hle] at h
      simp only at h
      unfold encodeWidths at hw
      rw [if_neg hle] at hw
      simp only at hw
      simp only [decodeWidths, List.map_cons] at hw
      rw [List.cons_prefix_cons] at hw
      obtain ⟨hw1, hw2⟩ := hw
      have hmem3 : e.2.2 < 3 := h3 e (List.mem_cons_self _ _)
      have hmembd := hb e (List.mem_cons_self _ _)
      have hnotmem : ∀ q ∈ rest, q ≠ e := fun q hq hqe => hnd.1 (hqe ▸ hq)
      rcases adaptive_embed_bits_cases (channelAt orig e) bits idx
          (calculate_edge_strength orig e.1 e.2.1) thrE (by omega) with
        ⟨-, h2le, heq⟩ | ⟨-, heq⟩
      · -- two bits were embedded here
        rw [heq] at h hw1 hw2
        simp only at h hw1 hw2
        rw [if_pos (by norm_num)] at h
        have hcond := width_two hw1.symm
        have hval : channelAt fin e =
            channelAt orig e / 4 * 4 + bitsToNat ((bits.drop idx).take 2) := by
          rw [payloadLoop_channelAt_not_mem orig bits thrE rest _ fin _ _ e h
            hmem3 (fun q hq => h3 q (List.mem_cons_of_mem _ hq)) hnotmem]
          exact channelAt_writeChannel_self im e.1 e.2.1 e.2.2 _
            hmembd.1 hmembd.2 hmem3
        have hd1 : bits.drop idx = bits[idx] :: bits.drop (idx + 1) :=
          List.drop_eq_getElem_cons (by omega)
        have hd2 : bits.drop (idx + 1) = bits[idx + 1] :: bits.drop (idx + 2) :=
          List.drop_eq_getElem_cons (by omega)
        have htake2 : (bits.drop idx).take 2 = [bits[idx], bits[idx + 1]] := by
          rw [hd1, hd2]
          rfl
        have hextract : adaptive_extract_bits (channelAt fin e)
            (calculate_edge_strength fin e.1 e.2.1) thrD =
            [bits[idx], bits[idx + 1]] := by
          unfold adaptive_extract_bits
          rw [if_pos hcond, hval, htake2, bitsToNat_pair]
          have e0 : (channelAt orig e / 4 * 4 +
              (2 * (if bits[idx] then 1 else 0) +
                (if bits[idx + 1] then 1 else 0))) / 2 % 2 =
              (if bits[idx] then 1 else 0) := by
            cases bits[idx] <;> cases bits[idx + 1] <;> simp <;> omega
          have e1 : (channelAt orig e / 4 * 4 +
              (2 * (if bits[idx] then 1 else 0) +
                (if bits[idx + 1] then 1 else 0))) % 2 =
              (if bits[idx + 1] then 1 else 0) := by
            cases bits[idx] <;> cases bits[idx + 1] <;> simp <;> omega
          rw [e0, e1, decide_if_eq_one, decide_if_eq_one]
        rw [List.flatMap_cons, hextract]
        have hih := ih (writeChannel im e.1 e.2.1 e.2.2
            (channelAt orig e / 4 * 4 + bitsToNat ((bits.drop idx).take 2)))
          fin (idx + 2) hnd.2
          (fun q hq => h3 q (List.mem_cons_of_mem _ hq))
          (fun q hq => by
            rw [writeChannel_height, writeChannel_rowLen]
            exact hb q (List.mem_cons_of_mem _ hq))
          h hw2
        rw [show bits.length - idx = (bits.length - (idx + 2)) + 1 + 1 by omega]
        simp only [List.cons_append, List.nil_append]
        rw [List.take_succ_cons, List.take_succ_cons, hih, hd1, hd2]
      · -- one bit was embedded here (low variance or final bit)
        rw [heq] at h hw1 hw2
        simp only at h hw1 hw2
        rw [if_pos (by norm_num)] at h
        have hcond := width_one hw1.symm
        have hval : channelAt fin e =
            channelAt orig e / 2 * 2 +
              (if bits.getD idx false then 1 else 0) := by
          rw [payloadLoop_channelAt_not_mem orig bits thrE rest _ fin _ _ e h
            hmem3 (fun q hq => h3 q (List.mem_cons_of_mem _ hq)) hnotmem]
          exact channelAt_writeChannel_self im e.1 e.2.1 e.2.2 _
            hmembd.1 hmembd.2 hmem3
        have hgetD : bits.getD idx false = bits[idx] := by
          rw [List.getD_eq_getElem?_getD, List.getElem?_eq_getElem (by omega)]
          rfl
        have hextract : adaptive_extract_bits (channelAt fin e)
            (calculate_edge_strength fin e.1 e.2.1) thrD = [bits[idx]] := by
          unfold adaptive_extract_bits
          rw [if_neg hcond, hval, hgetD]
          have e1 : (channelAt orig e / 2 * 2 +
              (if bits[idx] then 1 else 0)) % 2 =
              (if bits[idx] then 1 else 0) := by
            cases bits[idx] <;> simp <;> omega
          rw [e1, decide_if_eq_one]
        rw [List.flatMap_cons, hextract]
        have hih := ih (writeChannel im e.1 e.2.1 e.2.2
            (channelAt orig e / 2 * 2 +
              (if bits.getD idx false then 1 else 0)))
          fin (idx + 1) hnd.2
          (fun q hq => h3 q (List.mem_cons_of_mem _ hq))
          (fun q hq => by
            rw [writeChannel_height, writeChannel_rowLen]
            exact hb q (List.mem_cons_of_mem _ hq))
          h hw2
        have hd1 : bits.drop idx = bits[idx] :: bits.drop (idx + 1) :=
          List.drop_eq_getElem_cons (by omega)
        rw [show bits.length - idx = (bits.length - (idx + 1)) + 1 by omega]
        simp only [List.cons_append, List.nil_append]
        rw [List.take_succ_cons, hih, hd1]

/-! ## Header round-trip -/

theorem mod2_embed (v b : Nat) (hb : b < 2) : (v / 2 * 2 + b) % 2 = b := by
  omega

theorem map_fst_zip_take {α β : Type} :
    ∀ (l1 : List α) (l2 : List β),
    (l1.zip l2).map Prod.fst = l1.take l2.length := by
  intro l1
  induction l1 with
  | nil => intro l2; simp
  | cons a t ih =>
    intro l2
    cases l2 with
    | nil => simp
    | cons b t2 =>
      simp only [List.zip_cons_cons, List.map_cons, List.length_cons,
        List.take_succ_cons]
      rw [ih]

theorem flatMap_natToBits_length (M : List Nat) (h : ∀ c ∈ M, c < 256) :
    (M.flatMap (natToBits 8)).length = 8 * M.length := by
  induction M with
  | nil => simp
  | cons c t ih =>
    rw [List.flatMap_cons, List.length_append,
      natToBits_length 8 c (by norm_num)
        (by exact_mod_cast h c (List.mem_cons_self _ _)),
      ih (fun d hd => h d (List.mem_cons_of_mem _ hd)), List.length_cons]
    ring

theorem flatMap_natToBits_bytes (M : List Nat) (h : ∀ c ∈ M, c < 256) :
    (List.range M.length).map (fun i =>
      bitsToNat (((M.flatMap (natToBits 8)).drop (8 * i)).take 8)) = M := by
  induction M with
  | nil => simp
  | cons c t ih =>
    have hc : c < 2 ^ 8 := by
      have := h c (List.mem_cons_self _ _)
      norm_num
      omega
    have hlen : (natToBits 8 c).length = 8 := natToBits_length 8 c (by norm_num) hc
    rw [List.length_cons, List.range_succ_eq_map, List.map_cons]
    congr 1
    · rw [Nat.mul_zero, List.drop_zero, List.flatMap_cons,
        List.take_left' hlen, bitsToNat_natToBits 8 c hc]
    · rw [List.map_map]
      rw [List.map_congr_left (fun i _ => ?_), ih (fun d hd => h d (List.mem_cons_of_mem _ hd))]
      show bitsToNat ((((c :: t).flatMap (natToBits 8)).drop (8 * (i + 1))).take 8) =
        bitsToNat (((t.flatMap (natToBits 8)).drop (8 * i)).take 8)
      rw [List.flatMap_cons, show 8 * (i + 1) = (natToBits 8 c).length + 8 * i by rw [hlen]; ring,
        List.drop_append]

theorem getD_row_length {img : Raster} (hrect : Raster.Rect img) {y : Nat}
    (hy : y < img.length) :
    (img.getD y []).length = Raster.widthOf img := by
  rw [List.getD_eq_getElem?_getD, List.getElem?_eq_getElem hy]
  exact hrect _ (List.getElem_mem hy)

theorem entries_bounds {img : Raster} {coords : List (Nat × Nat)}
    (hrect : Raster.Rect img)
    (hwf : ∀ c ∈ coords, c.1 < Raster.widthOf img ∧ c.2 < Raster.heightOf img) :
    ∀ e ∈ entriesOf coords,
      e.2.1 < img.length ∧ e.1 < (img.getD e.2.1 []).length := by
  intro e he
  obtain ⟨hc, _⟩ := mem_entriesOf.mp he
  obtain ⟨hx, hy⟩ := hwf _ hc
  refine ⟨hy, ?_⟩
  rw [getD_row_length hrect hy]
  exact hx

/-- After a successful encode, the LSBs of the first 24 cursor entries
    hold the header bits, and only the LSB of those channels changed. -/
theorem encode_header_readback {img s : Raster} {M : List Nat} {T : Nat}
    {eps : ℚ} {ms : Nat} {iso : Bool} {p : Nat} {coords : List (Nat × Nat)}
    (hrect : Raster.Rect img)
    (henc : encode_message img M T eps ms iso p = .ok s)
    (hcE : get_optimized_edge_pixels img T eps ms iso = .ok coords) :
    ((entriesOf coords).take 24).map
        (fun e => decide (channelAt s e % 2 = 1)) =
      natToBits 16 M.length ++ natToBits 8 p ∧
    ∀ e ∈ (entriesOf coords).take 24,
      channelAt s e / 2 = channelAt img e / 2 := by
  obtain ⟨coords2, hc2, hM, hp, hcap, hloop⟩ := encode_ok_elim henc
  have hceq : coords2 = coords := by
    have h2 := hc2.symm.trans hcE
    rw [Except.ok.injEq] at h2
    exact h2
  subst hceq
  have hHBlen : (natToBits 16 M.length ++ natToBits 8 p).length = 24 := by
    rw [List.length_append,
      natToBits_length 16 M.length (by norm_num) (by norm_num; omega),
      natToBits_length 8 p (by norm_num) (by norm_num; omega)]
  obtain ⟨hcnd, hcwf⟩ := get_optimized_coords_wf hcE
  have hnd : (entriesOf coords2).Nodup := entriesOf_nodup hcnd
  have hb := entries_bounds hrect hcwf
  have h3 : ∀ e ∈ entriesOf coords2, e.2.2 < 3 :=
    fun e he => (mem_entriesOf.mp he).2
  have hlen3 : (entriesOf coords2).length = coords2.length * 3 :=
    length_entriesOf coords2
  have hge24 : 24 ≤ (entriesOf coords2).length := by omega
  rw [hHBlen] at hloop
  have hkey : ∀ k, k < 24 → ∀ (hk2 : k < (entriesOf coords2).length),
      channelAt s (entriesOf coords2)[k] =
        channelAt img (entriesOf coords2)[k] / 2 * 2 +
          (if (natToBits 16 M.length ++ natToBits 8 p).getD k false
            then 1 else 0) := by
    intro k hk hk2
    have hkzip : k < ((entriesOf coords2).zip
        (natToBits 16 M.length ++ natToBits 8 p)).length := by
      rw [List.length_zip, hHBlen]
      omega
    have hktake : k < ((entriesOf coords2).take 24).length := by
      rw [List.length_take]
      omega
    have hkHB : k < (natToBits 16 M.length ++ natToBits 8 p).length := by
      omega
    have hmemtake : (entriesOf coords2)[k] ∈ (entriesOf coords2).take 24 := by
      have h1 : ((entriesOf coords2).take 24)[k] = (entriesOf coords2)[k] :=
        List.getElem_take _
      rw [← h1]
      exact List.getElem_mem hktake
    have hstep1 : channelAt s (entriesOf coords2)[k] =
        channelAt (embedHeader img ((entriesOf coords2).zip
          (natToBits 16 M.length ++ natToBits 8 p)))
          (entriesOf coords2)[k] := by
      refine payloadLoop_channelAt_not_mem img _ _ _ _ s _ _ _ hloop
        (h3 _ (List.getElem_mem hk2))
        (fun q hq => h3 q (List.mem_of_mem_drop hq)) ?_
      intro q hq hqe
      have hdisj := List.disjoint_take_drop hnd (le_refl 24)
      exact (List.disjoint_left.mp hdisj hmemtake) (hqe ▸ hq)
    have hfst : (((entriesOf coords2).zip
        (natToBits 16 M.length ++ natToBits 8 p)).map Prod.fst) =
        (entriesOf coords2).take 24 := by
      rw [map_fst_zip_take, hHBlen]
    have hstep2 : channelAt (embedHeader img ((entriesOf coords2).zip
        (natToBits 16 M.length ++ natToBits 8 p)))
          (entriesOf coords2)[k] =
        channelAt img (entriesOf coords2)[k] / 2 * 2 +
          (if (natToBits 16 M.length ++ natToBits 8 p)[k]
            then 1 else 0) := by
      have hzk : ((entriesOf coords2).zip
          (natToBits 16 M.length ++ natToBits 8 p))[k] =
          ((entriesOf coords2)[k],
            (natToBits 16 M.length ++ natToBits 8 p)[k]) :=
        List.getElem_zip
      have hmemzip : ((entriesOf coords2)[k],
          (natToBits 16 M.length ++ natToBits 8 p)[k]) ∈
          (entriesOf coords2).zip
            (natToBits 16 M.length ++ natToBits 8 p) := by
        rw [← hzk]
        exact List.getElem_mem hkzip
      exact embedHeader_channelAt_mem _ img _ hmemzip
        (by rw [hfst]; exact List.Nodup.sublist (List.take_sublist _ _) hnd)
        (fun q hq => h3 q.1 (List.mem_of_mem_take (by
          rw [← hfst]
          exact List.mem_map_of_mem Prod.fst hq)))
        (fun q hq => hb q.1 (List.mem_of_mem_take (by
          rw [← hfst]
          exact List.mem_map_of_mem Prod.fst hq)))
    rw [hstep1, hstep2]
    congr 2
    rw [List.getD_eq_getElem?_getD, List.getElem?_eq_getElem (by omega)]
    rfl
  constructor
  · apply List.ext_getElem
    · rw [List.length_map, List.length_take, hHBlen]
      omega
    · intro k h1 h2
      rw [List.length_map, List.length_take] at h1
      have hk : k < 24 := by omega
      have hk2 : k < (entriesOf coords2).length := by omega
      have hktake : k < ((entriesOf coords2).take 24).length := by
        rw [List.length_take]
        omega
      rw [List.getElem_map, List.getElem_take, hkey k hk hk2]
      have hb2 : (if (natToBits 16 M.length ++ natToBits 8 p).getD k false
          then 1 else 0) < 2 := by
        split <;> omega
      rw [mod2_embed _ _ hb2, decide_if_eq_one,
        List.getD_eq_getElem?_getD, List.getElem?_eq_getElem (by omega)]
      rfl
  · intro e he
    obtain ⟨k, hk, hek⟩ := List.mem_iff_getElem.mp he
    rw [List.length_take] at hk
    have hk24 : k < 24 := by omega
    have hk2 : k < (entriesOf coords2).length := by omega
    have h1 : ((entriesOf coords2).take 24)[k] = (entriesOf coords2)[k] :=
      List.getElem_take _
    rw [← hek, h1, hkey k hk24 hk2]
    have hb2 : (if (natToBits 16 M.length ++ natToBits 8 p).getD k false
        then 1 else 0) < 2 := by
      split <;> omega
    omega

/-- C1 (amended): the round trip recovers the message whenever the
    decoder reproduces the encoder's coordinate list and per-entry bit
    widths.  For all rasters R, byte payloads M and parameters, if encode
    succeeds, the stego raster yields the same selected coordinate list,
    and the per-entry widths the decoder derives agree with the widths
    the encoder consumed, then decode returns exactly M. -/
theorem c1_roundtrip_amended
    (R s : Raster) (M : List Nat) (T : Nat) (eps : ℚ) (ms : Nat) (iso : Bool)
    (p : Nat) (coords : List (Nat × Nat))
    (hrect : Raster.Rect R)
    (hM : ∀ c ∈ M, c < 256)
    (henc : encode_message R M T eps ms iso p = .ok s)
    (hcE : get_optimized_edge_pixels R T eps ms iso = .ok coords)
    (hcD : get_optimized_edge_pixels s T eps ms iso = .ok coords)
    (hw : encodeWidths R (M.flatMap (natToBits 8))
        (calculate_adaptive_threshold R coords p)
        ((entriesOf coords).drop 24) 0
      <+: decodeWidths s (calculate_adaptive_threshold s coords p)
        ((entriesOf coords).drop 24)) :
    decode_message s T eps ms iso = .ok M := by
  obtain ⟨coords2, hc2, hM65, hp100, hcap, hloop⟩ := encode_ok_elim henc
  have hceq : coords2 = coords := by
    have h2 := hc2.symm.trans hcE
    rw [Except.ok.injEq] at h2
    exact h2
  subst hceq
  have hL16 : M.length < 2 ^ 16 := by norm_num; omega
  have hp8 : p < 2 ^ 8 := by norm_num; omega
  have hlen16 : (natToBits 16 M.length).length = 16 :=
    natToBits_length 16 M.length (by norm_num) hL16
  have hlen8 : (natToBits 8 p).length = 8 :=
    natToBits_length 8 p (by norm_num) hp8
  have hHBlen : (natToBits 16 M.length ++ natToBits 8 p).length = 24 := by
    rw [List.length_append, hlen16, hlen8]
  have hDBlen : (M.flatMap (natToBits 8)).length = 8 * M.length :=
    flatMap_natToBits_length M hM
  rw [hHBlen] at hloop
  obtain ⟨hcnd, hcwf⟩ := get_optimized_coords_wf hcE
  have hnd : (entriesOf coords2).Nodup := entriesOf_nodup hcnd
  have hb := entries_bounds hrect hcwf
  have h3 : ∀ e ∈ entriesOf coords2, e.2.2 < 3 :=
    fun e he => (mem_entriesOf.mp he).2
  have hlen3 : (entriesOf coords2).length = coords2.length * 3 :=
    length_entriesOf coords2
  have hge24 : 24 ≤ (entriesOf coords2).length := by omega
  have hdr := encode_header_readback hrect henc hcE
  have hstream := payloadLoop_extract R (M.flatMap (natToBits 8))
    (calculate_adaptive_threshold R coords2 p)
    (calculate_adaptive_threshold s coords2 p)
    ((entriesOf coords2).drop 24)
    (embedHeader R ((entriesOf coords2).zip
      (natToBits 16 M.length ++ natToBits 8 p))) s 0
    (List.Nodup.sublist (List.drop_sublist _ _) hnd)
    (fun q hq => h3 q (List.mem_of_mem_drop hq))
    (fun q hq => by
      rw [embedHeader_height, embedHeader_rowLen]
      exact hb q (List.mem_of_mem_drop hq))
    hloop hw
  simp only [Nat.sub_zero, List.drop_zero] at hstream
  have hslen : 8 * M.length ≤ (((entriesOf coords2).drop 24).flatMap
      (fun e => adaptive_extract_bits (channelAt s e)
        (calculate_edge_strength s e.1 e.2.1)
        (calculate_adaptive_threshold s coords2 p))).length := by
    have := congrArg List.length hstream
    rw [List.length_take, hDBlen] at this
    omega
  unfold decode_message
  rw [hcD]
  simp only []
  rw [if_neg (by omega : ¬(entriesOf coords2).length < 24)]
  rw [hdr.1, List.take_left' hlen16, List.drop_left' hlen16,
    bitsToNat_natToBits 16 M.length hL16, bitsToNat_natToBits 8 p hp8]
  rw [if_neg (by omega : ¬100 < p)]
  by_cases hL0 : M.length = 0
  · rw [if_pos hL0]
    rw [List.length_eq_zero.mp hL0]
  · rw [if_neg hL0]
    rw [if_neg (by omega : ¬(((entriesOf coords2).drop 24).flatMap
      (fun e => adaptive_extract_bits (channelAt s e)
        (calculate_edge_strength s e.1 e.2.1)
        (calculate_adaptive_threshold s coords2 p))).length < M.length * 8)]
    rw [Except.ok.injEq]
    rw [show M.length * 8 = (M.flatMap (natToBits 8)).length by omega]
    rw [hstream]
    exact flatMap_natToBits_bytes M hM

/-! ## Frame lemmas for the encoder -/

theorem channelOf_ge3 (p : Pixel) (c : Nat) (hc : 3 ≤ c) :
    channelOf p c = channelOf p 2 := by
  unfold channelOf
  rw [if_neg (by omega), if_neg (by omega), if_neg (by omega), if_neg (by omega)]

/-- The header fold changes no channel above its LSB. -/
theorem embedHeader_div2 (pairs : List (Entry × Bool)) : ∀ (im : Raster),
    (∀ q ∈ pairs, q.1.2.2 < 3) →
    ∀ a b d, d < 3 →
      channelAt (embedHeader im pairs) (a, b, d) / 2 =
        channelAt im (a, b, d) / 2 := by
  induction pairs with
  | nil => intro im _ a b d _; rfl
  | cons q t ih =>
    intro im h3 a b d hd
    obtain ⟨qe, qb⟩ := q
    simp only [embedHeader]
    rw [ih _ (fun r hr => h3 r (List.mem_cons_of_mem _ hr)) a b d hd]
    rcases channelAt_writeChannel_cases im qe.1 qe.2.1 qe.2.2
        (channelAt im qe / 2 * 2 + (if qb then 1 else 0)) (a, b, d)
        (h3 (qe, qb) (List.mem_cons_self _ _)) hd with hsame | ⟨heq, hval⟩
    · rw [hsame]
    · rw [hval]
      have hqe : qe = (a, b, d) := by
        obtain ⟨h1, h2⟩ := Prod.mk.injEq .. ▸ heq.symm
        obtain ⟨qx, qy, qc⟩ := qe
        simp only at h1 h2 ⊢
        rw [← h1, ← h2]
      rw [hqe]
      exact div2_embed_one _ _ (by split <;> omega)

/-- The payload loop changes no channel above its two LSBs, measured
    against the original raster it reads from. -/
theorem payloadLoop_div4 (orig : Raster) (bits : List Bool) (thr : ℚ) :
    ∀ (es : List Entry) (im fin : Raster) (idx j : Nat),
    payloadLoop orig bits thr es im idx = some (fin, j) →
    (∀ e ∈ es, e.2.2 < 3) →
    (∀ a b d, d < 3 →
      channelAt im (a, b, d) / 4 = channelAt orig (a, b, d) / 4) →
    ∀ a b d, d < 3 →
      channelAt fin (a, b, d) / 4 = channelAt orig (a, b, d) / 4 := by
  intro es
  induction es with
  | nil =>
    intro im fin idx j h _ hinv a b d hd
    unfold payloadLoop at h
    split at h
    · rw [Option.some.injEq, Prod.mk.injEq] at h
      rw [← h.1]
      exact hinv a b d hd
    · exact absurd h (by simp)
  | cons e rest ih =>
    intro im fin idx j h h3 hinv a b d hd
    unfold payloadLoop at h
    split at h
    · rw [Option.some.injEq, Prod.mk.injEq] at h
      rw [← h.1]
      exact hinv a b d hd
    · rename_i hlt
      simp only at h
      have hgoal : ∀ a b d, d < 3 →
          channelAt (if 0 < (adaptive_embed_bits (channelAt orig e) bits idx
              (calculate_edge_strength orig e.1 e.2.1) thr).2.1 then
            writeChannel im e.1 e.2.1 e.2.2
              (adaptive_embed_bits (channelAt orig e) bits idx
                (calculate_edge_strength orig e.1 e.2.1) thr).1
            else im) (a, b, d) / 4 =
          channelAt orig (a, b, d) / 4 := by
        intro a b d hd
        split
        · rcases channelAt_writeChannel_cases im e.1 e.2.1 e.2.2
              (adaptive_embed_bits (channelAt orig e) bits idx
                (calculate_edge_strength orig e.1 e.2.1) thr).1 (a, b, d)
              (h3 e (List.mem_cons_self _ _)) hd with hsame | ⟨heq, hval⟩
          · rw [hsame]
            exact hinv a b d hd
          · rw [hval]
            have he : e = (a, b, d) := by
              obtain ⟨h1, h2⟩ := Prod.mk.injEq .. ▸ heq.symm
              obtain ⟨ex, ey, ec⟩ := e
              simp only at h1 h2 ⊢
              rw [← h1, ← h2]
            rw [← he]
            rcases adaptive_embed_bits_cases (channelAt orig e) bits idx
                (calculate_edge_strength orig e.1 e.2.1) thr (by omega) with
              ⟨-, -, hstep⟩ | ⟨-, hstep⟩
            · rw [hstep]
              exact div4_embed_two _ _ (by
                have h1 := bitsToNat_lt ((bits.drop idx).take 2)
                have h2 : ((bits.drop idx).take 2).length ≤ 2 := by
                  rw [List.length_take]
                  omega
                have h3 : (2 : Nat) ^ ((bits.drop idx).take 2).length ≤ 2 ^ 2 :=
                  Nat.pow_le_pow_right (by norm_num) h2
                omega)
            · rw [hstep]
              exact div4_embed_one _ _ (by split <;> omega)
        · exact hinv a b d hd
      exact ih _ _ _ _ h (fun q hq => h3 q (List.mem_cons_of_mem _ hq)) hgoal
        a b d hd

/-! ## One unfolding step of the payload loop -/

theorem payloadLoop_cons_step (orig : Raster) (bits : List Bool) (thr : ℚ)
    (e : Entry) (rest : List Entry) (im : Raster) (idx : Nat)
    (hidx : idx < bits.length) (v w j : Nat)
    (hr : adaptive_embed_bits (channelAt orig e) bits idx
      (calculate_edge_strength orig e.1 e.2.1) thr = (v, w, j))
    (hw : 0 < w) :
    payloadLoop orig bits thr (e :: rest) im idx =
      payloadLoop orig bits thr rest (writeChannel im e.1 e.2.1 e.2.2 v) j := by
  conv_lhs => unfold payloadLoop
  rw [if_neg (by omega : ¬ bits.length ≤ idx)]
  simp only [hr]
  rw [if_pos hw]

/-! ## Monotonicity lemmas for DBSCAN assignment -/

theorem length_filter_mono {α : Type} (p q : α → Bool) (l : List α)
    (h : ∀ a ∈ l, p a = true → q a = true) :
    (l.filter p).length ≤ (l.filter q).length := by
  induction l with
  | nil => simp
  | cons a t ih =>
    have ht := ih (fun b hb => h b (List.mem_cons_of_mem _ hb))
    by_cases hp : p a = true
    · rw [List.filter_cons_of_pos hp, List.filter_cons_of_pos
        (h a (List.mem_cons_self _ _) hp)]
      simpa using ht
    · rw [List.filter_cons_of_neg (by simpa using hp)]
      cases hq : q a with
      | false => rw [List.filter_cons_of_neg (by simp [hq])]; exact ht
      | true =>
        rw [List.filter_cons_of_pos hq]
        exact le_trans ht (by simp)

/-- Shrinking eps or growing min_samples can only unassign points:
    a point inside a cluster for the stricter parameters is inside one
    for the looser parameters. -/
theorem isAssigned_mono (vars : List ℚ) (feats : List (List ℚ))
    (e1 e2 : ℚ) (m1 m2 : Nat) (f : List ℚ)
    (h0 : 0 ≤ e2) (he : e2 ≤ e1) (hm : m1 ≤ m2)
    (h : isAssigned vars feats e2 m2 f = true) :
    isAssigned vars feats e1 m1 f = true := by
  have hee : e2 ^ 2 ≤ e1 ^ 2 := pow_le_pow_left₀ h0 he 2
  unfold isAssigned at h ⊢
  rw [List.any_eq_true] at h ⊢
  obtain ⟨g, hg, hgp⟩ := h
  rw [Bool.and_eq_true, decide_eq_true_eq] at hgp
  obtain ⟨hcore, hdist⟩ := hgp
  refine ⟨g, hg, ?_⟩
  rw [Bool.and_eq_true, decide_eq_true_eq]
  refine ⟨?_, le_trans hdist hee⟩
  unfold isCorePt at hcore ⊢
  rw [decide_eq_true_eq] at hcore ⊢
  refine le_trans (le_trans hm hcore) ?_
  refine length_filter_mono _ _ _ (fun a _ hpa => ?_)
  rw [decide_eq_true_eq] at hpa ⊢
  exact le_trans hpa hee

theorem get_capacity_clustered_ok_elim {img : Raster} {T : Nat} {eps : ℚ}
    {ms : Nat} {iso : Bool} {cap : ClusteredCapacity}
    (h : get_capacity_clustered img T eps ms iso = .ok cap) :
    ∃ coords, get_optimized_edge_pixels img T eps ms iso = .ok coords ∧
      cap = ⟨coords.length, ((coords.length * 3 : Int) - 16) / 8⟩ := by
  unfold get_capacity_clustered at h
  cases hopt : get_optimized_edge_pixels img T eps ms iso with
  | error e =>
    rw [hopt] at h
    exact absurd h (by simp)
  | ok coords =>
    rw [hopt] at h
    simp only [] at h
    rw [Except.ok.injEq] at h
    exact ⟨coords, rfl, h.symm⟩

/-! ## Concrete pipeline facts used by the witnesses -/

set_option maxRecDepth 40000 in
theorem encode_testR1_ok :
    encode_message testR1 [65] 50 5 2 false 0 = .ok stegoR1 := by decide

set_option maxRecDepth 40000 in
theorem encode_testR2_ok :
    encode_message testR2 [65] 50 5 2 false 50 = .ok stegoR2 := by decide

set_option maxRecDepth 40000 in
theorem opt_testR1_ok :
    get_optimized_edge_pixels testR1 50 5 2 false = .ok coordsR1s := by decide

set_option maxRecDepth 40000 in
theorem opt_stegoR1_ok :
    get_optimized_edge_pixels stegoR1 50 5 2 false = .ok coordsR1s := by decide

set_option maxRecDepth 40000 in
theorem opt_testR2_ok :
    get_optimized_edge_pixels testR2 50 5 2 false = .ok coordsR2s := by decide

set_option maxRecDepth 40000 in
theorem cluster_testR2_ok :
    cluster_edge_pixels testR2 50 5 2 = .ok ⟨coordsR2s, [], allR2⟩ := by decide

/-! ## The claims -/

set_option maxRecDepth 40000 in
/-- C1 counterexample: on `testR2` the message "A" fits the reported
    capacity (max_chars = 2), encode succeeds, yet decode returns byte 64
    instead of 65: the final payload bit lands in the single LSB of a
    high-variance channel (the odd-tail rule), while the decoder reads
    two bits there, shifting the stream. -/
theorem c1_roundtrip_counterexample :
    get_capacity testR2 50 5 2 false 50 = .ok ⟨12, 9, 3, 2, 45⟩ ∧
    ([65] : List Nat).length ≤ 2 ∧
    encode_message testR2 [65] 50 5 2 false 50 = .ok stegoR2 ∧
    decode_message stegoR2 50 5 2 false = .ok [64] ∧
    (64 : Nat) ≠ 65 := by decide

set_option maxRecDepth 40000 in
theorem c1_roundtrip_witness :
    decode_message stegoR1 50 5 2 false = .ok [65] :=
  c1_roundtrip_amended testR1 stegoR1 [65] 50 5 2 false 0 coordsR1s
    (by decide) (by decide) encode_testR1_ok opt_testR1_ok opt_stegoR1_ok
    ⟨List.replicate 20 2, by decide⟩

/-- C2: encoding is deterministic.  The embedding is a pure function of
    (raster, message, parameters) — the source fixes `np.random.seed(42)`
    and DBSCAN/StandardScaler are deterministic — so two successful runs
    agree byte for byte. -/
theorem c2_encode_deterministic (img : Raster) (M : List Nat) (T : Nat)
    (eps : ℚ) (ms : Nat) (iso : Bool) (p : Nat) (s1 s2 : Raster)
    (h1 : encode_message img M T eps ms iso p = .ok s1)
    (h2 : encode_message img M T eps ms iso p = .ok s2) :
    s1 = s2 := by
  have h := h1.symm.trans h2
  rw [Except.ok.injEq] at h
  exact h

theorem c2_encode_deterministic_witness : stegoR2 = stegoR2 :=
  c2_encode_deterministic testR2 [65] 50 5 2 false 50 stegoR2 stegoR2
    encode_testR2_ok encode_testR2_ok

/-- C4: a successful encode writes the header as exactly 24 bits (16-bit
    length, then 8-bit percentile), one bit into the LSB of each of the
    first 24 cursor entries regardless of variance; reading those LSBs
    back recovers the header bit string, the payload length and the
    percentile, and only the LSB of those channels changed. -/
theorem c4_header_integrity (R s : Raster) (M : List Nat) (T : Nat)
    (eps : ℚ) (ms : Nat) (iso : Bool) (p : Nat) (coords : List (Nat × Nat))
    (hrect : Raster.Rect R)
    (henc : encode_message R M T eps ms iso p = .ok s)
    (hc : get_optimized_edge_pixels R T eps ms iso = .ok coords) :
    (natToBits 16 M.length ++ natToBits 8 p).length = 24 ∧
    ((entriesOf coords).take 24).map
        (fun e => decide (channelAt s e % 2 = 1)) =
      natToBits 16 M.length ++ natToBits 8 p ∧
    bitsToNat ((((entriesOf coords).take 24).map
      (fun e => decide (channelAt s e % 2 = 1))).take 16) = M.length ∧
    bitsToNat ((((entriesOf coords).take 24).map
      (fun e => decide (channelAt s e % 2 = 1))).drop 16) = p ∧
    ∀ e ∈ (entriesOf coords).take 24,
      channelAt s e / 2 = channelAt R e / 2 := by
  obtain ⟨coords2, hc2, hM, hp, -, -⟩ := encode_ok_elim henc
  have hceq : coords2 = coords := by
    have h2 := hc2.symm.trans hc
    rw [Except.ok.injEq] at h2
    exact h2
  subst hceq
  have hL16 : M.length < 2 ^ 16 := by norm_num; omega
  have hp8 : p < 2 ^ 8 := by norm_num; omega
  have hlen16 : (natToBits 16 M.length).length = 16 :=
    natToBits_length 16 M.length (by norm_num) hL16
  have hlen8 : (natToBits 8 p).length = 8 :=
    natToBits_length 8 p (by norm_num) hp8
  obtain ⟨hmap, hdiv⟩ := encode_header_readback hrect henc hc
  refine ⟨by rw [List.length_append, hlen16, hlen8], hmap, ?_, ?_, hdiv⟩
  · rw [hmap, List.take_left' hlen16, bitsToNat_natToBits 16 M.length hL16]
  · rw [hmap, List.drop_left' hlen16, bitsToNat_natToBits 8 p hp8]

theorem c4_header_integrity_witness :
    (natToBits 16 ([65] : List Nat).length ++ natToBits 8 50).length = 24 ∧
    ((entriesOf coordsR2s).take 24).map
        (fun e => decide (channelAt stegoR2 e % 2 = 1)) =
      natToBits 16 ([65] : List Nat).length ++ natToBits 8 50 ∧
    bitsToNat ((((entriesOf coordsR2s).take 24).map
      (fun e => decide (channelAt stegoR2 e % 2 = 1))).take 16) =
      ([65] : List Nat).length ∧
    bitsToNat ((((entriesOf coordsR2s).take 24).map
      (fun e => decide (channelAt stegoR2 e % 2 = 1))).drop 16) = 50 ∧
    ∀ e ∈ (entriesOf coordsR2s).take 24,
      channelAt stegoR2 e / 2 = channelAt testR2 e / 2 :=
  c4_header_integrity testR2 stegoR2 [65] 50 5 2 false 50 coordsR2s
    (by decide) encode_testR2_ok opt_testR2_ok

/-- C9: every failure of encode is an explicit error value (the pure
    model returns no raster then), and an ok raster exists only after
    every header and payload bit has been embedded: inverting a
    successful run shows all validity and capacity checks passed and the
    payload loop consumed the entire payload bit string; a message over
    65535 bytes never yields an ok. -/
theorem c9_encode_atomicity (img : Raster) (M : List Nat) (T : Nat)
    (eps : ℚ) (ms : Nat) (iso : Bool) (p : Nat) :
    (∀ s, encode_message img M T eps ms iso p = .ok s →
      M.length ≤ 65535 ∧ p ≤ 100 ∧
      ∃ coords, get_optimized_edge_pixels img T eps ms iso = .ok coords ∧
        (natToBits 16 M.length ++ natToBits 8 p).length +
          (M.flatMap (natToBits 8)).length ≤ coords.length * 3 ∧
        payloadLoop img (M.flatMap (natToBits 8))
          (calculate_adaptive_threshold img coords p)
          ((entriesOf coords).drop
            (natToBits 16 M.length ++ natToBits 8 p).length)
          (embedHeader img ((entriesOf coords).zip
            (natToBits 16 M.length ++ natToBits 8 p))) 0 =
          some (s, (M.flatMap (natToBits 8)).length)) ∧
    (65535 < M.length →
      ∃ e, encode_message img M T eps ms iso p = .error e) := by
  constructor
  · intro s hs
    obtain ⟨coords, hc, h1, h2, h3, h4⟩ := encode_ok_elim hs
    exact ⟨h1, h2, coords, hc, h3, h4⟩
  · intro hlen
    cases hopt : get_optimized_edge_pixels img T eps ms iso with
    | error e =>
      refine ⟨e, ?_⟩
      unfold encode_message
      rw [hopt]
    | ok coords =>
      refine ⟨"Pesan terlalu panjang (maksimal 65535 karakter)", ?_⟩
      unfold encode_message
      rw [hopt]
      exact if_pos hlen

theorem c9_encode_atomicity_witness :
    ∃ e, encode_message flatR (List.replicate 65536 0) 50 5 2 false 0 =
      .error e :=
  (c9_encode_atomicity flatR (List.replicate 65536 0) 50 5 2 false 0).2
    (by rw [List.length_replicate]; norm_num)

/-- C3 (amended): at each cursor entry processed by the payload loop,
    the strength is the 3×3 neighborhood variance of that entry's pixel
    computed against the input raster; when it reaches the threshold and
    at least two payload bits remain, 2 bits are consumed and overwrite
    the channel's two LSBs; when it reaches the threshold but only the
    final bit remains, and always below the threshold, a single bit is
    consumed and overwrites only the LSB (the new channel value is built
    from the input raster's value). -/
theorem c3_adaptive_step_amended (orig : Raster) (bits : List Bool)
    (thr : ℚ) (e : Entry) (rest : List Entry) (im : Raster) (idx : Nat)
    (hidx : idx < bits.length) :
    (thr ≤ calculate_edge_strength orig e.1 e.2.1 → idx + 2 ≤ bits.length →
      payloadLoop orig bits thr (e :: rest) im idx =
        payloadLoop orig bits thr rest
          (writeChannel im e.1 e.2.1 e.2.2
            (channelAt orig e / 4 * 4 + bitsToNat ((bits.drop idx).take 2)))
          (idx + 2)) ∧
    (thr ≤ calculate_edge_strength orig e.1 e.2.1 → idx + 1 = bits.length →
      payloadLoop orig bits thr (e :: rest) im idx =
        payloadLoop orig bits thr rest
          (writeChannel im e.1 e.2.1 e.2.2
            (channelAt orig e / 2 * 2 +
              (if bits.getD idx false then 1 else 0)))
          (idx + 1)) ∧
    (¬thr ≤ calculate_edge_strength orig e.1 e.2.1 →
      payloadLoop orig bits thr (e :: rest) im idx =
        payloadLoop orig bits thr rest
          (writeChannel im e.1 e.2.1 e.2.2
            (channelAt orig e / 2 * 2 +
              (if bits.getD idx false then 1 else 0)))
          (idx + 1)) := by
  refine ⟨fun hs h2 => ?_, fun hs h1 => ?_, fun hs => ?_⟩
  · rcases adaptive_embed_bits_cases (channelAt orig e) bits idx
        (calculate_edge_strength orig e.1 e.2.1) thr hidx with
      ⟨-, -, hr⟩ | ⟨hor, hr⟩
    · exact payloadLoop_cons_step orig bits thr e rest im idx hidx _ _ _ hr
        (by norm_num)
    · rcases hor with h | h
      · exact absurd hs h
      · exact absurd h (by omega)
  · rcases adaptive_embed_bits_cases (channelAt orig e) bits idx
        (calculate_edge_strength orig e.1 e.2.1) thr hidx with
      ⟨-, hlen2, -⟩ | ⟨-, hr⟩
    · exact absurd h1 (by omega)
    · exact payloadLoop_cons_step orig bits thr e rest im idx hidx _ _ _ hr
        (by norm_num)
  · rcases adaptive_embed_bits_cases (channelAt orig e) bits idx
        (calculate_edge_strength orig e.1 e.2.1) thr hidx with
      ⟨hs2, -, -⟩ | ⟨-, hr⟩
    · exact absurd hs2 hs
    · exact payloadLoop_cons_step orig bits thr e rest im idx hidx _ _ _ hr
        (by norm_num)

theorem c3_adaptive_step_witness :
    payloadLoop tinyR [true] 0 [(0, 0, 2)] tinyR 0 =
      payloadLoop tinyR [true] 0 []
        (writeChannel tinyR 0 0 2
          (channelAt tinyR (0, 0, 2) / 2 * 2 +
            (if ([true] : List Bool).getD 0 false then 1 else 0))) 1 :=
  (c3_adaptive_step_amended tinyR [true] 0 (0, 0, 2) [] tinyR 0
    (by decide)).2.1 (by decide) (by decide)

set_option maxRecDepth 40000 in
/-- C3 counterexample: in the payload stream of encoding "A" into
    `testR2` (percentile 50), the sixth processed cursor entry is
    (4, 4, 2), whose pixel's neighborhood variance reaches the
    threshold, yet it consumes only 1 bit (the final bit of the
    payload), not 2: widths run [1, 1, 1, 2, 2, 1]. -/
theorem c3_adaptive_width_counterexample :
    calculate_adaptive_threshold testR2 coordsR2s 50 ≤
      calculate_edge_strength testR2 4 4 ∧
    ((entriesOf coordsR2s).drop 24).getD 5 (0, 0, 0) = (4, 4, 2) ∧
    encodeWidths testR2 ([65].flatMap (natToBits 8))
      (calculate_adaptive_threshold testR2 coordsR2s 50)
      ((entriesOf coordsR2s).drop 24) 0 = [1, 1, 1, 2, 2, 1] := by decide

set_option maxRecDepth 40000 in
/-- C5 (amended): edge detection never fails: a raster narrower or
    shorter than 3 has no Sobel interior, every magnitude is zero and
    the result is a successful empty list (the Python normalization
    turns the all-zero magnitude array into zeros via the NaN → uint8
    cast rather than raising), and a raster none of whose normalized
    magnitudes exceed the threshold likewise yields a successful empty
    list. -/
theorem c5_edge_detection_amended (img : Raster) (T : Nat) :
    (Raster.widthOf img < 3 ∨ Raster.heightOf img < 3 →
      getEdgePixels img T = .ok []) ∧
    ((∀ c ∈ allCoords img, normMag img (maxMagSq img) c.1 c.2 ≤ T) →
      getEdgePixels img T = .ok []) := by
  have hok : (∀ c ∈ allCoords img,
      ¬ T < normMag img (maxMagSq img) c.1 c.2) →
      getEdgePixels img T = .ok [] := by
    intro h
    unfold getEdgePixels
    rw [Except.ok.injEq]
    unfold edgePixelList
    rw [List.filter_eq_nil_iff]
    intro c hc
    simp only [decide_eq_true_eq]
    exact h c hc
  constructor
  · intro hdim
    apply hok
    intro c _
    have hcond : ¬(1 ≤ c.1 ∧ c.1 + 1 < Raster.widthOf img ∧
        1 ≤ c.2 ∧ c.2 + 1 < Raster.heightOf img) := by
      rintro ⟨h1, h2, h3, h4⟩
      rcases hdim with h | h <;> omega
    have hmag : magSq img c.1 c.2 = 0 := by
      unfold magSq sobelGx sobelGy
      rw [if_neg hcond, if_neg hcond]
      norm_num
    unfold normMag
    rw [hmag, Nat.mul_zero, Nat.zero_div]
    have h0 : sqrt255 0 = 0 := by decide
    omega
  · intro hle
    apply hok
    intro c hc
    exact Nat.not_lt.mpr (hle c hc)

set_option maxRecDepth 40000 in
/-- C5 counterexample: a 2×2 raster (width < 3) makes edge detection
    return an empty success, not an InvalidInput error. -/
theorem c5_edge_detection_counterexample :
    Raster.widthOf tinyR < 3 ∧
    getEdgePixels tinyR 50 = .ok [] ∧
    ∀ msg : String, getEdgePixels tinyR 50 ≠ .error msg := by
  refine ⟨by decide, by decide, ?_⟩
  intro msg h
  rw [show getEdgePixels tinyR 50 = .ok [] from by decide] at h
  exact absurd h (by simp)

set_option maxRecDepth 40000 in
theorem c5_edge_detection_witness : getEdgePixels tinyR 77 = .ok [] :=
  (c5_edge_detection_amended tinyR 77).1 (Or.inl (by decide))

/-- C6: the clusterer rejects invalid DBSCAN parameters (eps ≤ 0 or
    min_samples < 2) with an explicit error, and rejects an empty edge
    list (with otherwise valid parameters) with an explicit error; in
    both cases no clustering result is produced. -/
theorem c6_cluster_errors (img : Raster) (T : Nat) (eps : ℚ) (ms : Nat) :
    (eps ≤ 0 ∨ ms < 2 →
      cluster_edge_pixels img T eps ms =
        .error ("Parameter DBSCAN tidak valid (eps > 0, min_samples >= 2)")) ∧
    (0 < eps → 2 ≤ ms → T ≤ 255 → edgePixelList img T = [] →
      cluster_edge_pixels img T eps ms =
        .error ("Tidak ada edge ditemukan")) := by
  constructor
  · intro h
    unfold cluster_edge_pixels
    rw [if_pos h]
  · intro h1 h2 h3 hemp
    unfold cluster_edge_pixels
    rw [if_neg (by push_neg; exact ⟨h1, h2⟩), if_neg (by omega : ¬ 255 < T)]
    simp only [getEdgePixels]
    rw [hemp]
    rfl

set_option maxRecDepth 40000 in
theorem c6_cluster_errors_witness :
    cluster_edge_pixels flatR 50 0 2 =
      .error ("Parameter DBSCAN tidak valid (eps > 0, min_samples >= 2)") ∧
    cluster_edge_pixels flatR 50 5 2 =
      .error ("Tidak ada edge ditemukan") :=
  ⟨(c6_cluster_errors flatR 50 0 2).1 (Or.inl (le_refl 0)),
   (c6_cluster_errors flatR 50 5 2).2 (by norm_num) (by norm_num)
     (by norm_num) (by decide)⟩

/-- C7: the selector partitions the edge coordinates by DBSCAN label
    (clustered = label ≠ NOISE, noise = label = NOISE), hands back the
    group chosen by use_isolated sorted ascending lexicographically, and
    errors when the chosen group is empty.  Membership in the chosen
    group is exactly membership in the edge list together with the
    DBSCAN assignment matching the flag. -/
theorem c7_selector (img : Raster) (T : Nat) (eps : ℚ) (ms : Nat)
    (iso : Bool) (res : ClusterResult)
    (h : cluster_edge_pixels img T eps ms = .ok res) :
    (∀ c, c ∈ (if iso then res.noise_coords else res.clustered_coords) ↔
      c ∈ res.all_coords ∧
        coordAssigned img res.all_coords eps ms c = !iso) ∧
    List.Pairwise (fun a b => coordLe a b = true)
      (if iso then res.noise_coords else res.clustered_coords) ∧
    ((if iso then res.noise_coords else res.clustered_coords) ≠ [] →
      get_optimized_edge_pixels img T eps ms iso =
        .ok (if iso then res.noise_coords else res.clustered_coords)) ∧
    ((if iso then res.noise_coords else res.clustered_coords) = [] →
      get_optimized_edge_pixels img T eps ms iso =
        .error ("Tidak ada edge pixels ditemukan")) := by
  obtain ⟨-, -, -, -, -, hclus, hnoise⟩ := cluster_ok_elim h
  refine ⟨?_, ?_, ?_, ?_⟩
  · intro c
    cases iso with
    | false =>
      rw [if_neg Bool.false_ne_true, hclus, mem_sortCoords, List.mem_filter]
      simp only [Bool.not_false]
    | true =>
      rw [if_pos rfl, hnoise, mem_sortCoords, List.mem_filter]
      simp only [Bool.not_eq_true', Bool.not_true]
  · cases iso with
    | false =>
      rw [if_neg Bool.false_ne_true, hclus]
      exact sortCoords_pairwise _
    | true =>
      rw [if_pos rfl, hnoise]
      exact sortCoords_pairwise _
  · intro hne
    unfold get_optimized_edge_pixels
    rw [h]
    exact if_neg (fun h0 => hne (List.length_eq_zero.mp h0))
  · intro hemp
    unfold get_optimized_edge_pixels
    rw [h]
    exact if_pos (by rw [hemp]; rfl)

set_option maxRecDepth 40000 in
theorem c7_selector_witness :
    (∀ c, c ∈ coordsR2s ↔
      c ∈ allR2 ∧ coordAssigned testR2 allR2 5 2 c = !false) ∧
    List.Pairwise (fun a b => coordLe a b = true) coordsR2s ∧
    (coordsR2s ≠ [] →
      get_optimized_edge_pixels testR2 50 5 2 false = .ok coordsR2s) ∧
    (coordsR2s = [] →
      get_optimized_edge_pixels testR2 50 5 2 false =
        .error ("Tidak ada edge pixels ditemukan")) :=
  c7_selector testR2 50 5 2 false ⟨coordsR2s, [], allR2⟩ cluster_testR2_ok

/-- C8 (amended): for the grouped (use_isolated = false) selection the
    clustered-capacity estimate is monotone: shrinking eps or growing
    min_samples never gains capacity, because the set of DBSCAN-assigned
    coordinates over the same edge list only shrinks.  (For the isolated
    selection the claim fails: see the counterexample.) -/
theorem c8_capacity_monotone_amended (img : Raster) (T : Nat)
    (e1 e2 : ℚ) (m1 m2 : Nat) (cap1 cap2 : ClusteredCapacity)
    (he : e2 ≤ e1) (hm : m1 ≤ m2)
    (h1 : get_capacity_clustered img T e1 m1 false = .ok cap1)
    (h2 : get_capacity_clustered img T e2 m2 false = .ok cap2) :
    cap2.edge_pixels ≤ cap1.edge_pixels ∧
      cap2.max_chars ≤ cap1.max_chars := by
  obtain ⟨cs1, hopt1, hcap1⟩ := get_capacity_clustered_ok_elim h1
  obtain ⟨cs2, hopt2, hcap2⟩ := get_capacity_clustered_ok_elim h2
  obtain ⟨res1, hres1, hc1, -⟩ := get_optimized_ok_elim hopt1
  obtain ⟨res2, hres2, hc2, -⟩ := get_optimized_ok_elim hopt2
  obtain ⟨hpos1, -, -, hall1, -, hclus1, -⟩ := cluster_ok_elim hres1
  obtain ⟨hpos2, -, -, hall2, -, hclus2, -⟩ := cluster_ok_elim hres2
  simp only [if_neg Bool.false_ne_true] at hc1 hc2
  have hlen : cs2.length ≤ cs1.length := by
    rw [hc1, hclus1, hall1, hc2, hclus2, hall2, sortCoords_length,
      sortCoords_length]
    refine length_filter_mono _ _ _ (fun a _ hpa => ?_)
    simp only [coordAssigned] at hpa ⊢
    exact isAssigned_mono _ _ e1 e2 m1 m2 _ (le_of_lt hpos2) he hm hpa
  subst hcap1 hcap2
  refine ⟨hlen, ?_⟩
  refine Int.ediv_le_ediv (by norm_num) ?_
  have hcast : (cs2.length : Int) ≤ cs1.length := by exact_mod_cast hlen
  omega

set_option maxRecDepth 40000 in
/-- C8 counterexample: on `testR3` with the isolated (noise) selection,
    raising min_samples from 3 to 4 stops the stripe from clustering, so
    the noise group grows from the 3 halo pixels to all 17 edge pixels
    and the capacity estimate rises from -1 to 4 characters. -/
theorem c8_capacity_counterexample :
    get_capacity_clustered testR3 100 (4/5) 3 true = .ok ⟨3, -1⟩ ∧
    get_capacity_clustered testR3 100 (4/5) 4 true = .ok ⟨17, 4⟩ ∧
    (3 : Nat) ≤ 4 ∧ (-1 : Int) < 4 := by decide

set_option maxRecDepth 40000 in
theorem c8_capacity_monotone_witness :
    (14 : Nat) ≤ 14 ∧ (3 : Int) ≤ 3 :=
  c8_capacity_monotone_amended testR3 100 (4/5) (4/5) 2 3 ⟨14, 3⟩ ⟨14, 3⟩
    (le_refl _) (by norm_num) (by decide) (by decide)

/-- C10: the frame property of encode.  Pixels outside the selected
    coordinate list are byte-identical between cover and stego; every
    channel of the stego raster agrees with the cover above its two LSBs
    (so the values differ by at most 3); the 24 header channel positions
    agree above the single LSB. -/
theorem c10_encode_frame (R s : Raster) (M : List Nat) (T : Nat)
    (eps : ℚ) (ms : Nat) (iso : Bool) (p : Nat)
    (coords : List (Nat × Nat))
    (henc : encode_message R M T eps ms iso p = .ok s)
    (hc : get_optimized_edge_pixels R T eps ms iso = .ok coords) :
    (∀ x y, (x, y) ∉ coords → getPixel s x y = getPixel R x y) ∧
    (∀ x y c, channelAt s (x, y, c) / 4 = channelAt R (x, y, c) / 4 ∧
      channelAt s (x, y, c) ≤ channelAt R (x, y, c) + 3 ∧
      channelAt R (x, y, c) ≤ channelAt s (x, y, c) + 3) ∧
    (∀ e ∈ (entriesOf coords).take 24,
      channelAt s e / 2 = channelAt R e / 2) := by
  obtain ⟨coords2, hc2, hM, hp, hcap, hloop⟩ := encode_ok_elim henc
  have hceq : coords2 = coords := by
    have h2 := hc2.symm.trans hc
    rw [Except.ok.injEq] at h2
    exact h2
  subst hceq
  have hHBlen : (natToBits 16 M.length ++ natToBits 8 p).length = 24 := by
    rw [List.length_append,
      natToBits_length 16 M.length (by norm_num) (by norm_num; omega),
      natToBits_length 8 p (by norm_num) (by norm_num; omega)]
  rw [hHBlen] at hloop
  obtain ⟨hcnd, -⟩ := get_optimized_coords_wf hc
  have hnd : (entriesOf coords2).Nodup := entriesOf_nodup hcnd
  have hzip3 : ∀ q ∈ (entriesOf coords2).zip
      (natToBits 16 M.length ++ natToBits 8 p), q.1.2.2 < 3 := by
    intro q hq
    have hq1 : q.1 ∈ ((entriesOf coords2).zip
        (natToBits 16 M.length ++ natToBits 8 p)).map Prod.fst :=
      List.mem_map_of_mem Prod.fst hq
    rw [map_fst_zip_take] at hq1
    exact (mem_entriesOf.mp (List.mem_of_mem_take hq1)).2
  have hdrop3 : ∀ q ∈ (entriesOf coords2).drop 24, q.2.2 < 3 :=
    fun q hq => (mem_entriesOf.mp (List.mem_of_mem_drop hq)).2
  have hafter2 : ∀ a b d, d < 3 →
      channelAt (embedHeader R ((entriesOf coords2).zip
        (natToBits 16 M.length ++ natToBits 8 p))) (a, b, d) / 2 =
      channelAt R (a, b, d) / 2 :=
    embedHeader_div2 _ R hzip3
  have hdiv4 : ∀ a b d, d < 3 →
      channelAt s (a, b, d) / 4 = channelAt R (a, b, d) / 4 := by
    refine payloadLoop_div4 R _ _ _ _ s _ _ hloop hdrop3 ?_
    intro a b d hd
    have := hafter2 a b d hd
    omega
  refine ⟨?_, ?_, ?_⟩
  · intro x y hmem
    have hp1 : getPixel s x y = getPixel (embedHeader R
        ((entriesOf coords2).zip
          (natToBits 16 M.length ++ natToBits 8 p))) x y := by
      refine payloadLoop_getPixel_not_mem R _ _ _ _ s _ _ x y hloop ?_
      intro q hq hqxy
      exact hmem (hqxy ▸ (mem_entriesOf.mp (List.mem_of_mem_drop hq)).1)
    have hp2 : getPixel (embedHeader R ((entriesOf coords2).zip
        (natToBits 16 M.length ++ natToBits 8 p))) x y =
        getPixel R x y := by
      refine embedHeader_getPixel_not_mem _ R x y ?_
      intro q hq hqxy
      have hq1 : q.1 ∈ ((entriesOf coords2).zip
          (natToBits 16 M.length ++ natToBits 8 p)).map Prod.fst :=
        List.mem_map_of_mem Prod.fst hq
      rw [map_fst_zip_take] at hq1
      exact hmem (hqxy ▸
        (mem_entriesOf.mp (List.mem_of_mem_take hq1)).1)
    rw [hp1, hp2]
  · intro x y c
    by_cases hc3 : c < 3
    · have h4 := hdiv4 x y c hc3
      exact ⟨h4, (div4_eq_diff_le _ _ h4).1, (div4_eq_diff_le _ _ h4).2⟩
    · have hs2 : channelAt s (x, y, c) = channelAt s (x, y, 2) :=
        channelOf_ge3 (getPixel s x y) c (by omega)
      have hR2 : channelAt R (x, y, c) = channelAt R (x, y, 2) :=
        channelOf_ge3 (getPixel R x y) c (by omega)
      rw [hs2, hR2]
      have h4 := hdiv4 x y 2 (by norm_num)
      exact ⟨h4, (div4_eq_diff_le _ _ h4).1, (div4_eq_diff_le _ _ h4).2⟩
  · intro e he
    obtain ⟨ex, ey, ec⟩ := e
    have he3 : ec < 3 :=
      (mem_entriesOf.mp (List.mem_of_mem_take he)).2
    have hstep1 : channelAt s (ex, ey, ec) =
        channelAt (embedHeader R ((entriesOf coords2).zip
          (natToBits 16 M.length ++ natToBits 8 p))) (ex, ey, ec) := by
      refine payloadLoop_channelAt_not_mem R _ _ _ _ s _ _ (ex, ey, ec)
        hloop he3 hdrop3 ?_
      intro q hq hqe
      have hdisj := List.disjoint_take_drop hnd (le_refl 24)
      exact (List.disjoint_left.mp hdisj he) (hqe ▸ hq)
    rw [hstep1]
    exact hafter2 ex ey ec he3

theorem c10_encode_frame_witness :
    (∀ x y, (x, y) ∉ coordsR2s →
      getPixel stegoR2 x y = getPixel testR2 x y) ∧
    (∀ x y c, channelAt stegoR2 (x, y, c) / 4 =
        channelAt testR2 (x, y, c) / 4 ∧
      channelAt stegoR2 (x, y, c) ≤ channelAt testR2 (x, y, c) + 3 ∧
      channelAt testR2 (x, y, c) ≤ channelAt stegoR2 (x, y, c) + 3) ∧
    (∀ e ∈ (entriesOf coordsR2s).take 24,
      channelAt stegoR2 e / 2 = channelAt testR2 e / 2) :=
  c10_encode_frame testR2 stegoR2 [65] 50 5 2 false 50 coordsR2s
    encode_testR2_ok opt_testR2_ok

end Stegano
